import Mathlib

/-!
# Verification of the openrank graph-construction core

Shallow embedding of the graph-construction and bounded-traversal engine of
the repository (source files `github_graph_visualization.py` and
`github_utils.py`), together with proofs and refutations of the frozen
claims about it.

Modelling conventions:
* Repository names and topic tags are both strings in the source; the
  embedding is generic over a linearly ordered type `α` (the linear order is
  used only for `tuple(sorted([r1, r2]))`, the canonical edge key).
* A `networkx.Graph` is modelled as the list of explicitly attributed nodes
  (in `add_node` order; `add_node` on an existing key overwrites its
  attributes) plus the list of edges (in insertion order; `add_edge` on an
  existing unordered pair overwrites its weight, and an endpoint missing
  from the node list still counts as a node of the graph, mirroring
  networkx's implicit node creation).
* Python `dict`s keyed by insertion order are association lists; the
  `current_level` / `next_level` Python `set`s are modelled as
  duplicate-free lists in first-insertion order (a deterministic refinement
  of the unspecified set iteration order).
* Python floats are modelled as exact rationals, and `round(x, 2)` as exact
  round-half-to-even at two decimal places.
* The `ValueError` raised for a missing seed is modelled as `Except.error`
  carrying the requested name.
* `BuildState.evalLog` is ghost instrumentation: it records every unordered
  pair whose shared-topic intersection `len(set(t1) & set(t2))` is actually
  computed, so that claims about re-evaluation of pairs are statable.  No
  other definition depends on it.
-/

namespace OpenRank

/-- A repository record, as consumed by `GitHubGraphVisualizer`
(`full_name`, `topics`, `activity_score`, `star_count`, `language`).
`language = none` models JSON `null`. -/
structure Repo (α : Type) where
  full_name : α
  topics : List α
  activity_score : ℚ
  star_count : ℤ
  language : Option String
deriving DecidableEq

/-- Node attributes attached by `G.add_node`: `activity`, `star`, `lang`,
and (for ego networks only) `level`. -/
structure NodeAttrs where
  activity : ℚ
  star : ℤ
  lang : String
  level : Option ℕ
deriving DecidableEq

/-- A `networkx.Graph`: attributed nodes in insertion order plus edges
`(u, v, weight)` in insertion order. -/
structure Graph (α : Type) where
  nodeAttrs : List (α × NodeAttrs)
  edges : List (α × α × ℕ)
deriving DecidableEq

variable {α : Type} [LinearOrder α]

/-- The empty graph `nx.Graph()`. -/
def Graph.empty : Graph α := ⟨[], []⟩

/-- `G.add_node(x, **attrs)`: overwrite the attributes if the node exists,
otherwise append it. -/
def addNode (G : Graph α) (x : α) (a : NodeAttrs) : Graph α :=
  if G.nodeAttrs.any (fun p => decide (p.1 = x)) then
    { G with nodeAttrs := G.nodeAttrs.map (fun p => if p.1 = x then (x, a) else p) }
  else
    { G with nodeAttrs := G.nodeAttrs ++ [(x, a)] }

/-- Whether an edge record connects the unordered pair `{u, v}`. -/
def matchesEdge (u v : α) (e : α × α × ℕ) : Prop :=
  (e.1 = u ∧ e.2.1 = v) ∨ (e.1 = v ∧ e.2.1 = u)

instance (u v : α) (e : α × α × ℕ) : Decidable (matchesEdge u v e) := by
  unfold matchesEdge; infer_instance

/-- `G.add_edge(u, v, weight := w)`: overwrite the weight if the unordered
pair already has an edge, otherwise append the edge.  Endpoints need not be
attributed nodes (networkx adds them implicitly). -/
def addEdge (G : Graph α) (u v : α) (w : ℕ) : Graph α :=
  if G.edges.any (fun e => decide (matchesEdge u v e)) then
    { G with edges := G.edges.map (fun e => if matchesEdge u v e then (e.1, e.2.1, w) else e) }
  else
    { G with edges := G.edges ++ [(u, v, w)] }

/-- Attribute lookup on the node list (`G.nodes[x]`). -/
def lookupAttr (G : Graph α) (x : α) : Option NodeAttrs :=
  (G.nodeAttrs.find? (fun p => decide (p.1 = x))).map (·.2)

/-- Membership in the graph's node set, including nodes created implicitly
by `add_edge`. -/
def hasNodeB (G : Graph α) (x : α) : Bool :=
  G.nodeAttrs.any (fun p => decide (p.1 = x)) ||
    G.edges.any (fun e => decide (e.1 = x ∨ e.2.1 = x))

/-- Whether the graph has an edge between `u` and `v` (either orientation). -/
def edgeBetween (G : Graph α) (u v : α) : Bool :=
  G.edges.any (fun e => decide (matchesEdge u v e))

/-- `self.repo_map = {repo["full_name"]: repo for repo in self.repo_data}`:
for a duplicated `full_name` the later record wins. -/
def repoMap (data : List (Repo α)) (x : α) : Option (Repo α) :=
  data.reverse.find? (fun r => decide (r.full_name = x))

/-- The full (untruncated) topic list of the record registered under `x`. -/
def topicsOf (data : List (Repo α)) (x : α) : List α :=
  ((repoMap data x).map Repo.topics).getD []

/-- `repo["language"] or "Unknown"`. -/
def langOf (r : Repo α) : String := r.language.getD "Unknown"

/-- One step of `_build_topic_mapping`: append `name` to the list of topic
`t`, creating the entry if the topic is new.  Note there is no dedup: the
source appends unconditionally. -/
def topicAppend (m : List (α × List α)) (t : α) (name : α) : List (α × List α) :=
  if m.any (fun p => decide (p.1 = t)) then
    m.map (fun p => if p.1 = t then (p.1, p.2 ++ [name]) else p)
  else
    m ++ [(t, [name])]

/-- `GitHubGraphVisualizer._build_topic_mapping`: for each repository, for
each of its topics (in list order), append its `full_name` to that topic's
list. -/
def build_topic_mapping (data : List (Repo α)) : List (α × List α) :=
  data.foldl (fun m r => r.topics.foldl (fun m' t => topicAppend m' t r.full_name) m) []

/-- `self.topic_to_repos.get(topic, [])`. -/
def topicGet (m : List (α × List α)) (t : α) : List α :=
  (((m.find? (fun p => decide (p.1 = t)))).map (·.2)).getD []

/-- `len(set(t1) & set(t2))` for the full topic sets of `u` and `v`:
the number of distinct topics of `u` that are also topics of `v`. -/
def sharedCount (data : List (Repo α)) (u v : α) : ℕ :=
  ((topicsOf data u).dedup.filter (fun t => decide (t ∈ topicsOf data v))).length

/-- Global edge cap of `_build_full_graph` (`max_edges = 1000`). -/
def max_edges : ℕ := 1000

/-- Loop state of `_build_full_graph`: the graph, the `added_edges` set of
canonical pair keys (in insertion order), the `edge_count` counter, and the
ghost log of pairs whose intersection was computed. -/
structure BuildState (α : Type) where
  G : Graph α
  added : List (α × α)
  count : ℕ
  evalLog : List (α × α)
deriving DecidableEq

/-- `tuple(sorted([r1, r2]))`. -/
def sortPair (u v : α) : α × α := if u ≤ v then (u, v) else (v, u)

/-- The body of the innermost loop of `_build_full_graph`: skip the pair if
its key is in `added_edges`; otherwise compute the shared-topic count and,
only if it is at least 2, add the edge, record the key and bump the
counter.  A failing pair is *not* recorded. -/
def processPair (data : List (Repo α)) (s : BuildState α) (r1 r2 : α) : BuildState α :=
  if sortPair r1 r2 ∈ s.added then s
  else if 2 ≤ sharedCount data r1 r2 then
    { G := addEdge s.G r1 r2 (sharedCount data r1 r2)
      added := s.added ++ [sortPair r1 r2]
      count := s.count + 1
      evalLog := s.evalLog ++ [sortPair r1 r2] }
  else
    { s with evalLog := s.evalLog ++ [sortPair r1 r2] }

/-- The `for j in range(i+1, len(repos))` loop: before each pair, break if
the edge counter has reached the cap. -/
def innerLoop (data : List (Repo α)) (r1 : α) : List α → BuildState α → BuildState α
  | [], s => s
  | r2 :: rs, s =>
    if max_edges ≤ s.count then s
    else innerLoop data r1 rs (processPair data s r1 r2)

/-- The `for i in range(len(repos))` loop: run the inner loop, then break
if the edge counter has reached the cap. -/
def pairLoop (data : List (Repo α)) : List α → BuildState α → BuildState α
  | [], s => s
  | r1 :: rs, s =>
    let s' := innerLoop data r1 rs s
    if max_edges ≤ s'.count then s'
    else pairLoop data rs s'

/-- The node-then-edge construction of `_build_full_graph`: every
repository becomes an attributed node, then each topic's list, truncated to
its first 8 entries, is scanned for pairs. -/
def build_full_state (data : List (Repo α)) : BuildState α :=
  let G0 : Graph α := data.foldl
    (fun G r => addNode G r.full_name ⟨r.activity_score, r.star_count, langOf r, none⟩)
    Graph.empty
  (build_topic_mapping data).foldl
    (fun s p => pairLoop data (p.2.take 8) s)
    ⟨G0, [], 0, []⟩

/-- `GitHubGraphVisualizer._build_full_graph`. -/
def build_full_graph (data : List (Repo α)) : Graph α := (build_full_state data).G

/-- `levels = 4` of `_build_4level_graph`. -/
def levels : ℕ := 4

/-- `max_nodes = 150` of `_build_4level_graph`. -/
def max_nodes : ℕ := 150

/-- Traversal state of `_build_4level_graph`: graph, `visited` in
finalization order, and the accumulating `next_level`. -/
structure EgoState (α : Type) where
  G : Graph α
  visited : List α
  next : List α
deriving DecidableEq

/-- `if rr not in visited and len(visited) < max_nodes`: admit `rr` to
`next_level` and draw a weight-1 edge from the current repository. -/
def processCandidate (s : EgoState α) (name rr : α) : EgoState α :=
  if rr ∉ s.visited ∧ s.visited.length < max_nodes then
    { s with
      next := if rr ∈ s.next then s.next else s.next ++ [rr]
      G := addEdge s.G name rr 1 }
  else s

/-- Processing one frontier repository inside a round: skip if already
visited, otherwise finalize it, attribute it at the current `level`, and
scan its first 5 topics' first 5 indexed repositories for candidates.
(The `none` branch mirrors the fact that the source would look up
`self.repo_map[repo_name]`; it is unreachable because every frontier name
comes from the repository set.) -/
def processNode (data : List (Repo α)) (tm : List (α × List α)) (level : ℕ)
    (s : EgoState α) (name : α) : EgoState α :=
  if name ∈ s.visited then s
  else
    let s1 : EgoState α := { s with visited := s.visited ++ [name] }
    match repoMap data name with
    | none => s1
    | some repo =>
      let attrs : NodeAttrs :=
        ⟨repo.activity_score, repo.star_count, langOf repo, some level⟩
      let s2 : EgoState α := { s1 with G := addNode s1.G name attrs }
      (repo.topics.take 5).foldl
        (fun s' t => ((topicGet tm t).take 5).foldl
          (fun s'' rr => processCandidate s'' name rr) s')
        s2

/-- One round (`for repo_name in current_level`). -/
def processRound (data : List (Repo α)) (tm : List (α × List α)) (level : ℕ)
    (st : EgoState α) (frontier : List α) : EgoState α :=
  frontier.foldl (processNode data tm level) st

/-- The `for level in range(levels + 1)` loop with its break condition:
stop when the frontier is empty or the visited count has reached
`max_nodes`; otherwise run the round and continue on the accumulated
`next_level`. -/
def egoRounds (data : List (Repo α)) (tm : List (α × List α)) :
    List ℕ → EgoState α → List α → EgoState α × List α
  | [], st, current => (st, current)
  | l :: ls, st, current =>
    if current = [] ∨ max_nodes ≤ st.visited.length then (st, current)
    else
      let st' := processRound data tm l { st with next := [] } current
      egoRounds data tm ls st' st'.next

/-- The traversal of `_build_4level_graph` after the seed-existence check,
starting from frontier `{start}` at level 0. -/
def build_4level_run (data : List (Repo α)) (start : α) : EgoState α × List α :=
  egoRounds data (build_topic_mapping data) (List.range (levels + 1))
    ⟨Graph.empty, [], []⟩ [start]

/-- `GitHubGraphVisualizer._build_4level_graph` including the guard
`if start_repo not in self.repo_map: raise ValueError(...)`, modelled as
`Except.error` carrying the requested name. -/
def build_4level_state (data : List (Repo α)) (start : α) :
    Except α (EgoState α × List α) :=
  if (repoMap data start).isSome then .ok (build_4level_run data start)
  else .error start

/-- The graph returned by `_build_4level_graph`. -/
def build_4level_graph (data : List (Repo α)) (start : α) : Except α (Graph α) :=
  (build_4level_state data start).map (fun p => p.1.G)

/-- The repository names of the input sequence, in order. -/
def namesOf (data : List (Repo α)) : List α := data.map Repo.full_name

/-- The canonical keys of all qualifying pairs: unordered pairs of distinct
repository names whose full topic sets share at least 2 topics. -/
def qualifyingList (data : List (Repo α)) : List (α × α) :=
  (namesOf data).flatMap (fun u =>
    (namesOf data).filterMap (fun v =>
      if u < v ∧ 2 ≤ sharedCount data u v then some (u, v) else none))

/-- The set of qualifying pair keys; its cardinality is "the total number
of unordered pairs sharing at least 2 topics". -/
def qualifyingKeys (data : List (Repo α)) : Finset (α × α) :=
  (qualifyingList data).toFinset

/-- The canonical unordered-pair keys of a graph's edges, in edge order. -/
def edgeKeys (G : Graph α) : List (α × α) :=
  G.edges.map (fun e => sortPair e.1 e.2.1)

/-- The simple-graph invariant of the specification: no self-loop, at most
one edge per unordered pair of endpoints, and every edge endpoint belongs
to the node set. -/
def SimpleOK (G : Graph α) : Prop :=
  (∀ e ∈ G.edges, e.1 ≠ e.2.1) ∧
  (edgeKeys G).Nodup ∧
  (∀ e ∈ G.edges, hasNodeB G e.1 = true ∧ hasNodeB G e.2.1 = true)

/-- Structural well-formedness of the edge list: distinct unordered pair
keys and no self-loops. -/
def GoodEdges (G : Graph α) : Prop :=
  (edgeKeys G).Nodup ∧ ∀ e ∈ G.edges, e.1 ≠ e.2.1

/-- The running invariant of `_build_full_graph`, unconditional in the
input: the counter counts `added_edges`, which are exactly the edge keys in
insertion order, never exceed the cap and never repeat; every edge carries
the shared-topic count of its endpoints as weight, which is at least 2. -/
structure FullInv (data : List (Repo α)) (s : BuildState α) : Prop where
  count_eq : s.count = s.added.length
  count_le : s.count ≤ max_edges
  keys_eq : edgeKeys s.G = s.added
  added_nodup : s.added.Nodup
  weights : ∀ e ∈ s.G.edges, 2 ≤ e.2.2 ∧ e.2.2 = sharedCount data e.1 e.2.1

/-- Every recorded pair key comes from a qualifying pair of distinct
repository names (only provable when the scanned topic lists are
duplicate-free). -/
def AddedSound (data : List (Repo α)) (s : BuildState α) : Prop :=
  ∀ k ∈ s.added, ∃ u v, u ∈ namesOf data ∧ v ∈ namesOf data ∧ u ≠ v ∧
    k = sortPair u v ∧ 2 ≤ sharedCount data u v

/-- The canonical keys of all `i < j` pairs enumerated by the pair loop
over one topic's repository list. -/
def pairKeys : List α → List (α × α)
  | [] => []
  | x :: xs => xs.map (fun y => sortPair x y) ++ pairKeys xs

/-- The ego-traversal invariant at the start of a round at level `l`:
attributed nodes are finalized, carry a level below `l`, every level `m >= 1`
node has an edge to a level `m - 1` node, and every frontier member is
either finalized or (past round 0) hangs off a node of the previous
level. -/
structure EgoInv (st : EgoState α) (current : List α) (l : ℕ) : Prop where
  attr_vis : ∀ x, (lookupAttr st.G x).isSome = true → x ∈ st.visited
  levels_lt : ∀ x a, lookupAttr st.G x = some a → ∃ m, a.level = some m ∧ m < l
  parents : ∀ x a m, lookupAttr st.G x = some a → a.level = some m → 1 ≤ m →
    ∃ y b, edgeBetween st.G x y = true ∧ lookupAttr st.G y = some b ∧
      b.level = some (m - 1)
  frontier : ∀ x ∈ current, x ∈ st.visited ∨ l = 0 ∨
    ∃ y b, edgeBetween st.G x y = true ∧ lookupAttr st.G y = some b ∧
      b.level = some (l - 1)

/-- The ego-traversal invariant while a round at level `l` is running:
levels are now bounded by `l` inclusive, and every accumulated `next_level`
member is finalized or hangs off a level-`l` node. -/
structure EgoMid (st : EgoState α) (l : ℕ) : Prop where
  attr_vis : ∀ x, (lookupAttr st.G x).isSome = true → x ∈ st.visited
  levels_le : ∀ x a, lookupAttr st.G x = some a → ∃ m, a.level = some m ∧ m ≤ l
  parents : ∀ x a m, lookupAttr st.G x = some a → a.level = some m → 1 ≤ m →
    ∃ y b, edgeBetween st.G x y = true ∧ lookupAttr st.G y = some b ∧
      b.level = some (m - 1)
  nextinv : ∀ x ∈ st.next, x ∈ st.visited ∨
    ∃ y b, edgeBetween st.G x y = true ∧ lookupAttr st.G y = some b ∧
      b.level = some l

/-- The activity-metric record consumed by `calculate_activity_score`;
fields absent from the Python dict default to 0, so they are total here. -/
structure ActivityData where
  commits_total : ℕ
  prs_merged : ℕ
  issues_closed : ℕ
  issues_open : ℕ
  contributors_total : ℕ
deriving DecidableEq

/-- Round-half-to-even to an integer (Python's `round` on an exact value). -/
def roundHalfEven (q : ℚ) : ℤ :=
  if q - ⌊q⌋ < 1 / 2 then ⌊q⌋
  else if 1 / 2 < q - ⌊q⌋ then ⌊q⌋ + 1
  else if ⌊q⌋ % 2 = 0 then ⌊q⌋ else ⌊q⌋ + 1

/-- `round(x, 2)`. -/
def round2 (q : ℚ) : ℚ := (roundHalfEven (q * 100) : ℚ) / 100

/-- `github_utils.calculate_activity_score`, with Python floats modelled as
exact rationals. -/
def calculate_activity_score (a : ActivityData) : ℚ :=
  let commits_score := min ((a.commits_total : ℚ) / 1000) 1 * 40
  let prs_score := min ((a.prs_merged : ℚ) / 100) 1 * 20
  let issues_resolved : ℚ := (a.issues_closed : ℚ) - (a.issues_open : ℚ)
  let issues_score := min (max (issues_resolved / 50) 0) 1 * 20
  let contributors_score := min ((a.contributors_total : ℚ) / 100) 1 * 20
  round2 (commits_score + prs_score + issues_score + contributors_score)

/-! ### Concrete inputs used by counterexamples and witnesses -/

/-- One record whose topic list repeats topic `3`. -/
def dC2 : List (Repo ℕ) := [⟨7, [3, 3], 0, 0, none⟩]

/-- One record with a repeated topic and two distinct topics. -/
def dC3 : List (Repo ℕ) := [⟨7, [3, 3, 4], 0, 0, none⟩]

/-- Five records all carrying the duplicated topics `[10, 10, 11, 11]`. -/
def dC5 : List (Repo ℕ) :=
  [⟨1, [10, 10, 11, 11], 0, 0, none⟩, ⟨2, [10, 10, 11, 11], 0, 0, none⟩,
   ⟨3, [10, 10, 11, 11], 0, 0, none⟩, ⟨4, [10, 10, 11, 11], 0, 0, none⟩,
   ⟨5, [10, 10, 11, 11], 0, 0, none⟩]

/-- Two records sharing exactly one topic. -/
def dC6 : List (Repo ℕ) := [⟨1, [9], 0, 0, none⟩, ⟨2, [9], 0, 0, none⟩]

/-- A six-repository chain `0 - 1 - 2 - 3 - 4 - 5` linked by successive
topics, so that `5` is discovered in the last round but never finalized. -/
def dC7 : List (Repo ℕ) :=
  [⟨0, [100], 0, 0, none⟩, ⟨1, [100, 101], 0, 0, none⟩, ⟨2, [101, 102], 0, 0, none⟩,
   ⟨3, [102, 103], 0, 0, none⟩, ⟨4, [103, 104], 0, 0, none⟩, ⟨5, [104], 0, 0, none⟩]

/-- Level-2 repositories of the 151-repository input: `exB k` carries the
private topic of the level-1 repository it hangs from. -/
def exB (k : ℕ) : Repo ℕ := ⟨k, [2000 + (k - 26) / 5 + 1], 0, 0, none⟩

/-- Level-1 repositories of the 151-repository input: `exA i` carries one
of the seed's five topics plus a private topic with five fresh members. -/
def exA (i : ℕ) : Repo ℕ := ⟨i, [1000 + (i - 1) / 5 + 1, 2000 + i], 0, 0, none⟩

/-- 151 repositories: a seed (name `0`) with five topics of five members
each, 25 level-1 repositories, and 125 level-2 repositories, so that round
2 starts with 26 finalized nodes and a frontier of 125 fresh candidates. -/
def dC1 : List (Repo ℕ) :=
  ((List.range 125).map (fun j => exB (26 + j))) ++
  ((List.range 25).map (fun i => exA (i + 1))) ++
  [⟨0, [1001, 1002, 1003, 1004, 1005], 0, 0, none⟩]

/-- Three clean records: `1` and `3` share topics `{10, 11}`, `1` and `2`
share only `{10}`. -/
def dW3 : List (Repo ℕ) :=
  [⟨1, [10, 11], 0, 0, none⟩, ⟨2, [10], 0, 0, none⟩, ⟨3, [10, 11], 0, 0, none⟩]

/-- A single clean record used as an ego-network seed. -/
def dW1 : List (Repo ℕ) := [⟨1, [10], 3, 5, some "Python"⟩]

end OpenRank

namespace OpenRank

/-! ## Theorems -/

variable {α : Type} [LinearOrder α]

/-! ### C9: the activity scorer -/

theorem floor_le_roundHalfEven (q : ℚ) : ⌊q⌋ ≤ roundHalfEven q := by
  unfold roundHalfEven
  split_ifs <;> omega

theorem roundHalfEven_le_ceil (q : ℚ) : roundHalfEven q ≤ ⌈q⌉ := by
  have hfc : ⌊q⌋ ≤ ⌈q⌉ := Int.floor_le_ceil q
  have hlt : ¬ q - ⌊q⌋ < 1 / 2 → ⌊q⌋ + 1 ≤ ⌈q⌉ := by
    intro h
    have h1 : (⌊q⌋ : ℚ) < q := by
      have := not_lt.mp h
      linarith
    exact Int.lt_ceil.mpr h1
  unfold roundHalfEven
  split_ifs with h1 h2 h3
  · exact hfc
  · exact hlt h1
  · exact hfc
  · exact hlt h1

theorem round2_nonneg {q : ℚ} (h : 0 ≤ q) : 0 ≤ round2 q := by
  unfold round2
  have h1 : (0 : ℤ) ≤ ⌊q * 100⌋ := Int.floor_nonneg.mpr (by positivity)
  have h2 : (0 : ℤ) ≤ roundHalfEven (q * 100) :=
    le_trans h1 (floor_le_roundHalfEven _)
  have h3 : (0 : ℚ) ≤ (roundHalfEven (q * 100) : ℚ) := by exact_mod_cast h2
  positivity

theorem round2_le_100 {q : ℚ} (h : q ≤ 100) : round2 q ≤ 100 := by
  unfold round2
  have h1 : roundHalfEven (q * 100) ≤ ⌈q * 100⌉ := roundHalfEven_le_ceil _
  have h2 : ⌈q * 100⌉ ≤ ⌈(10000 : ℚ)⌉ := Int.ceil_mono (by linarith)
  have h3 : ⌈(10000 : ℚ)⌉ = 10000 := by norm_num
  have h4 : roundHalfEven (q * 100) ≤ 10000 := by omega
  have h5 : (roundHalfEven (q * 100) : ℚ) ≤ 10000 := by exact_mod_cast h4
  linarith

/-- C9: `calculate_activity_score` is a pure function equal to the
specified clamped weighted sum rounded to 2 decimals, always lands in
`[0, 100]`, maps the all-zero record to `0`, and maps
`(5000, 500, 100, 0, 500)` to `100`. -/
theorem activity_score_contract : ∀ a : ActivityData,
    (calculate_activity_score a =
      round2 (min ((a.commits_total : ℚ) / 1000) 1 * 40 +
        min ((a.prs_merged : ℚ) / 100) 1 * 20 +
        min (max (((a.issues_closed : ℚ) - (a.issues_open : ℚ)) / 50) 0) 1 * 20 +
        min ((a.contributors_total : ℚ) / 100) 1 * 20) ∧
      0 ≤ calculate_activity_score a ∧ calculate_activity_score a ≤ 100) ∧
    calculate_activity_score ⟨0, 0, 0, 0, 0⟩ = 0 ∧
    calculate_activity_score ⟨5000, 500, 100, 0, 500⟩ = 100 := by
  intro a
  have h1a : (0 : ℚ) ≤ min ((a.commits_total : ℚ) / 1000) 1 :=
    le_min (by positivity) zero_le_one
  have h1b : min ((a.commits_total : ℚ) / 1000) 1 ≤ 1 := min_le_right _ _
  have h2a : (0 : ℚ) ≤ min ((a.prs_merged : ℚ) / 100) 1 :=
    le_min (by positivity) zero_le_one
  have h2b : min ((a.prs_merged : ℚ) / 100) 1 ≤ 1 := min_le_right _ _
  have h3a : (0 : ℚ) ≤ min (max (((a.issues_closed : ℚ) - (a.issues_open : ℚ)) / 50) 0) 1 :=
    le_min (le_max_right _ _) zero_le_one
  have h3b : min (max (((a.issues_closed : ℚ) - (a.issues_open : ℚ)) / 50) 0) 1 ≤ 1 :=
    min_le_right _ _
  have h4a : (0 : ℚ) ≤ min ((a.contributors_total : ℚ) / 100) 1 :=
    le_min (by positivity) zero_le_one
  have h4b : min ((a.contributors_total : ℚ) / 100) 1 ≤ 1 := min_le_right _ _
  refine ⟨⟨rfl, round2_nonneg (by nlinarith), round2_le_100 (by nlinarith)⟩, ?_, ?_⟩
  · norm_num [calculate_activity_score, round2, roundHalfEven]
  · norm_num [calculate_activity_score, round2, roundHalfEven, min_def, max_def]

/-! ### C10: missing seed -/

/-- C10: requesting an ego network for a name absent from the repository
map fails with the error condition carrying the requested name, before any
traversal state or graph is built (the embedding is pure, so no shared
state is touched). -/
theorem missing_seed_error : ∀ (data : List (Repo α)) (start : α),
    repoMap data start = none →
    build_4level_state data start = Except.error start ∧
    build_4level_graph data start = Except.error start := by
  intro data start h
  constructor
  · simp [build_4level_state, h]
  · simp [build_4level_graph, build_4level_state, h, Except.map]

/-- Witness for C10 at the empty repository set and seed `7`. -/
theorem missing_seed_error_witness :
    repoMap ([] : List (Repo ℕ)) 7 = none ∧
    (build_4level_state ([] : List (Repo ℕ)) 7 = Except.error 7 ∧
     build_4level_graph ([] : List (Repo ℕ)) 7 = Except.error 7) :=
  ⟨rfl, missing_seed_error [] 7 rfl⟩

/-! ### C1: the 150-node cap can be exceeded (code bug) -/

set_option maxRecDepth 10000 in
/-- C1: on the 151-repository input `dC1` the seed is present, yet the
traversal finalizes 151 nodes — more than `max_nodes = 150` — because a
round finalizes its whole frontier without re-checking the budget.  All
151 finalized nodes are attributed in the output graph. -/
theorem ego_visited_count_exceeds_cap :
    (repoMap dC1 0).isSome = true ∧
    (build_4level_run dC1 0).1.visited.length = 151 ∧ max_nodes < 151 := by
  decide

/-! ### C7: a node without attributes (code bug) -/

/-- C7: on the chain input `dC7`, repository `5` is discovered in the last
round, so `add_edge` makes it a node of the output graph, but it is never
finalized and carries none of the attributes `activity`, `star`, `lang`,
`level`. -/
theorem ego_node_without_attributes :
    (repoMap dC7 0).isSome = true ∧
    hasNodeB (build_4level_run dC7 0).1.G 5 = true ∧
    lookupAttr (build_4level_run dC7 0).1.G 5 = none ∧
    edgeBetween (build_4level_run dC7 0).1.G 4 5 = true := by
  refine ⟨by decide, by decide, by decide, by decide⟩

/-! ### C2: the topic index does not deduplicate (counterexample part) -/

/-- C2 counterexample: a record whose topic list repeats topic `3` is
appended twice to that topic's list, so the claim "a repository is appended
at most once per topic" fails on `dC2`. -/
theorem topic_mapping_duplicate_append :
    (topicGet (build_topic_mapping dC2) 3).count 7 = 2 ∧
    ¬ (topicGet (build_topic_mapping dC2) 3).Nodup := by
  refine ⟨by decide, by decide⟩

/-! ### C3: self-loop on degenerate input (counterexample part) -/

/-- C3 counterexample: with the duplicated topic list `[3, 3, 4]` the topic
index lists repository `7` twice under topic `3`, and the pair loop then
adds the self-loop `(7, 7)` with weight 2 to the full graph. -/
theorem full_graph_self_loop :
    edgeBetween (build_full_graph dC3) 7 7 = true ∧
    (build_full_graph dC3).edges = [(7, 7, 2)] := by
  refine ⟨by decide, by decide⟩

/-! ### C6: failing pairs are not recorded (counterexample part) -/

/-- C6 counterexample: on `dC6` the pair `(1, 2)` is evaluated (its
shared-topic intersection is computed) but fails the `shared >= 2` test,
and contrary to the claim it is *not* recorded as seen: `added_edges`
stays empty. -/
theorem failing_pair_not_recorded :
    (build_full_state dC6).evalLog = [(1, 2)] ∧
    (build_full_state dC6).added = [] := by
  refine ⟨by decide, by decide⟩

/-! ### C5: a qualifying pair can miss its edge (counterexample part) -/

/-- C5 counterexample: on `dC5` no topic indexes more than 8 distinct
repositories and only 10 unordered pairs qualify, yet repositories `1` and
`5` share 2 topics and get no edge, because duplicate appends push `5`
beyond the 8-entry truncation of both topic lists. -/
theorem full_graph_missing_qualifying_edge :
    (∀ p ∈ build_topic_mapping dC5, p.2.dedup.length ≤ 8) ∧
    (qualifyingKeys dC5).card ≤ 1000 ∧
    sharedCount dC5 1 5 = 2 ∧
    (1 : ℕ) ∈ namesOf dC5 ∧ (5 : ℕ) ∈ namesOf dC5 ∧
    edgeBetween (build_full_graph dC5) 1 5 = false := by
  refine ⟨by decide, by decide, by decide, by decide, by decide, by decide⟩

end OpenRank

namespace OpenRank

variable {α : Type} [LinearOrder α]

/-! ### Characterization of the topic index -/

theorem topicGet_nil (t : α) : topicGet ([] : List (α × List α)) t = [] := rfl

theorem topicGet_cons (p : α × List α) (ps : List (α × List α)) (t : α) :
    topicGet (p :: ps) t = if p.1 = t then p.2 else topicGet ps t := by
  by_cases h : p.1 = t
  · simp [topicGet, List.find?_cons_of_pos, h]
  · simp [topicGet, List.find?_cons_of_neg, h]

theorem map_topicUpd_eq_self (m : List (α × List α)) (t₀ name : α)
    (h : ∀ p ∈ m, p.1 ≠ t₀) :
    m.map (fun p => if p.1 = t₀ then (p.1, p.2 ++ [name]) else p) = m := by
  induction m with
  | nil => rfl
  | cons p ps ih =>
    have h1 : p.1 ≠ t₀ := h p (List.mem_cons_self p ps)
    simp only [List.map_cons, if_neg h1]
    rw [ih (fun q hq => h q (List.mem_cons_of_mem p hq))]

theorem topicGet_topicAppend (m : List (α × List α)) (t₀ t name : α) :
    topicGet (topicAppend m t₀ name) t =
      topicGet m t ++ if t = t₀ then [name] else [] := by
  induction m with
  | nil =>
    by_cases h : t = t₀
    · subst h; simp [topicAppend, topicGet_cons, topicGet_nil]
    · simp [topicAppend, topicGet_cons, topicGet_nil, Ne.symm h, h]
  | cons p ps ih =>
    by_cases hany : (p :: ps).any (fun q => decide (q.1 = t₀)) = true
    · rw [topicAppend, if_pos hany]
      simp only [List.map_cons]
      by_cases hp : p.1 = t₀
      · rw [if_pos hp]
        by_cases ht : t = p.1
        · subst ht
          rw [topicGet_cons, topicGet_cons, if_pos rfl, if_pos rfl, if_pos hp]
        · rw [topicGet_cons, topicGet_cons, if_neg (fun h' => ht h'.symm),
            if_neg (fun h' => ht h'.symm)]
          by_cases hps : ps.any (fun q => decide (q.1 = t₀)) = true
          · have := ih
            rw [topicAppend, if_pos hps] at this
            rw [this]
          · have hnone : ∀ q ∈ ps, q.1 ≠ t₀ := by
              intro q hq
              by_contra hc
              exact hps (List.any_eq_true.mpr ⟨q, hq, by simpa using hc⟩)
            rw [map_topicUpd_eq_self ps t₀ name hnone]
            have ht0 : t ≠ t₀ := fun h' => ht (h' ▸ hp.symm)
            simp [ht0]
      · rw [if_neg hp]
        by_cases ht : t = p.1
        · subst ht
          rw [topicGet_cons, topicGet_cons, if_pos rfl, if_pos rfl]
          simp [hp]
        · rw [topicGet_cons, topicGet_cons, if_neg (fun h' => ht h'.symm),
            if_neg (fun h' => ht h'.symm)]
          have hps : ps.any (fun q => decide (q.1 = t₀)) = true := by
            rcases List.any_eq_true.mp hany with ⟨q, hq, hq2⟩
            rcases List.mem_cons.mp hq with h' | h'
            · exact absurd (by simpa using (h' ▸ hq2 : decide (p.1 = t₀) = true)) hp
            · exact List.any_eq_true.mpr ⟨q, h', hq2⟩
          have := ih
          rw [topicAppend, if_pos hps] at this
          rw [this]
    · rw [topicAppend, if_neg hany]
      have hp : p.1 ≠ t₀ := by
        intro hc
        exact hany (List.any_eq_true.mpr ⟨p, List.mem_cons_self p ps, by simpa using hc⟩)
      have hps : ¬ ps.any (fun q => decide (q.1 = t₀)) = true := by
        intro hc
        rcases List.any_eq_true.mp hc with ⟨q, hq, hq2⟩
        exact hany (List.any_eq_true.mpr ⟨q, List.mem_cons_of_mem p hq, hq2⟩)
      rw [List.cons_append, topicGet_cons, topicGet_cons]
      by_cases ht : p.1 = t
      · rw [if_pos ht, if_pos ht]
        have : t ≠ t₀ := fun h' => hp (ht ▸ h' ▸ rfl)
        simp [this]
      · rw [if_neg ht, if_neg ht]
        have := ih
        rw [topicAppend, if_neg hps] at this
        exact this

theorem topicGet_repo_fold (l : List α) (m : List (α × List α)) (name t : α) :
    topicGet (l.foldl (fun m' t' => topicAppend m' t' name) m) t =
      topicGet m t ++
        List.replicate ((l.filter (fun x => decide (x = t))).length) name := by
  induction l generalizing m with
  | nil => simp
  | cons t' l ih =>
    rw [List.foldl_cons, ih, topicGet_topicAppend]
    by_cases h : t = t'
    · subst h
      simp [List.filter_cons, List.replicate_succ, List.append_assoc]
    · have h2 : ¬ t' = t := fun h' => h h'.symm
      simp [List.filter_cons, h, h2]

/-- Characterization of `_build_topic_mapping`: the list of a topic is, in
input order, one copy of each repository's `full_name` per occurrence of
the topic in that repository's topic list. -/
theorem topicGet_build (data : List (Repo α)) (t : α) :
    topicGet (build_topic_mapping data) t =
      data.flatMap (fun r =>
        List.replicate ((r.topics.filter (fun x => decide (x = t))).length)
          r.full_name) := by
  suffices h : ∀ m, topicGet
      (data.foldl (fun m r => r.topics.foldl (fun m' t' => topicAppend m' t' r.full_name) m) m) t =
      topicGet m t ++ data.flatMap (fun r =>
        List.replicate ((r.topics.filter (fun x => decide (x = t))).length) r.full_name) by
    simpa [build_topic_mapping] using h []
  induction data with
  | nil => simp
  | cons r data ih =>
    intro m
    rw [List.foldl_cons, ih, topicGet_repo_fold]
    simp [List.append_assoc]

theorem mem_topicGet_build {data : List (Repo α)} {t x : α} :
    x ∈ topicGet (build_topic_mapping data) t ↔
      ∃ r ∈ data, r.full_name = x ∧ t ∈ r.topics := by
  rw [topicGet_build]
  simp only [List.mem_flatMap, List.mem_replicate]
  constructor
  · rintro ⟨r, hr, hn, hx⟩
    refine ⟨r, hr, hx.symm, ?_⟩
    have hne : r.topics.filter (fun y => decide (y = t)) ≠ [] := by
      intro hnil
      simp [hnil] at hn
    rcases List.exists_mem_of_ne_nil _ hne with ⟨y, hy⟩
    have hmem := List.mem_filter.mp hy
    have hyt : y = t := by simpa using hmem.2
    exact hyt ▸ hmem.1
  · rintro ⟨r, hr, hx, ht⟩
    refine ⟨r, hr, ?_, hx.symm⟩
    intro hlen
    have hnil : r.topics.filter (fun y => decide (y = t)) = [] :=
      List.length_eq_zero.mp hlen
    have := List.filter_eq_nil_iff.mp hnil t ht
    simp at this

theorem filter_eq_length_le_one {l : List α} (h : l.Nodup) (t : α) :
    (l.filter (fun x => decide (x = t))).length ≤ 1 := by
  have hnd : (l.filter (fun x => decide (x = t))).Nodup := h.filter _
  have hall : ∀ x ∈ l.filter (fun x => decide (x = t)), x = t := by
    intro x hx
    simpa using (List.mem_filter.mp hx).2
  match hf : l.filter (fun x => decide (x = t)) with
  | [] => simp
  | [a] => simp
  | a :: b :: rest =>
    rw [hf] at hnd hall
    have ha : a = t := hall a (by simp)
    have hb : b = t := hall b (by simp)
    exact absurd (ha.trans hb.symm) (by simp [List.nodup_cons] at hnd; tauto)

theorem flatMap_sublist_of_small {β : Type} (data : List β) (f : β → List α) (g : β → α)
    (h : ∀ r ∈ data, f r = [] ∨ f r = [g r]) :
    (data.flatMap f).Sublist (data.map g) := by
  induction data with
  | nil => simp
  | cons r data ih =>
    rw [List.flatMap_cons, List.map_cons]
    rcases h r (List.mem_cons_self r data) with h1 | h1
    · rw [h1, List.nil_append]
      exact (ih (fun q hq => h q (List.mem_cons_of_mem r hq))).cons _
    · rw [h1, List.singleton_append]
      exact (ih (fun q hq => h q (List.mem_cons_of_mem r hq))).cons₂ _

theorem topicGet_build_nodup {data : List (Repo α)}
    (hnames : (namesOf data).Nodup) (htopics : ∀ r ∈ data, r.topics.Nodup)
    (t : α) : (topicGet (build_topic_mapping data) t).Nodup := by
  rw [topicGet_build]
  refine List.Nodup.sublist ?_ hnames
  refine flatMap_sublist_of_small data _ Repo.full_name ?_
  intro r hr
  have hle := filter_eq_length_le_one (htopics r hr) t
  interval_cases h : (r.topics.filter (fun x => decide (x = t))).length
  · left; simp
  · right; simp [List.replicate_succ, h]

/-- C2 (amended): with pairwise-distinct `full_name`s and duplicate-free
per-record topic lists, every topic's list in the index is duplicate-free,
i.e. each repository is appended at most once per topic. -/
theorem topic_mapping_nodup_of_nodup : ∀ (data : List (Repo α)),
    (namesOf data).Nodup → (∀ r ∈ data, r.topics.Nodup) →
    ∀ t, (topicGet (build_topic_mapping data) t).Nodup :=
  fun _ hnames htopics t => topicGet_build_nodup hnames htopics t

/-- Witness for C2 (amended) on the clean three-record input `dW3`. -/
theorem topic_mapping_nodup_witness :
    (namesOf dW3).Nodup ∧ (∀ r ∈ dW3, r.topics.Nodup) ∧
    (topicGet (build_topic_mapping dW3) 10).Nodup :=
  ⟨by decide, by decide,
    topic_mapping_nodup_of_nodup dW3 (by decide) (by decide) 10⟩

end OpenRank

namespace OpenRank

variable {α : Type} [LinearOrder α]

/-! ### Basic facts about canonical pair keys and graph operations -/

theorem sortPair_comm (a b : α) : sortPair a b = sortPair b a := by
  unfold sortPair
  split_ifs with h1 h2 h2
  · rw [le_antisymm h1 h2]
  · rfl
  · rfl
  · rcases le_total a b with h | h
    · exact absurd h h1
    · exact absurd h h2

theorem sortPair_eq_cases (a b c d : α) (h : sortPair a b = sortPair c d) :
    (a = c ∧ b = d) ∨ (a = d ∧ b = c) := by
  unfold sortPair at h
  split_ifs at h with h1 h2 h2 <;> rw [Prod.mk.injEq] at h
  · exact Or.inl h
  · exact Or.inr h
  · exact Or.inr ⟨h.2, h.1⟩
  · exact Or.inl ⟨h.2, h.1⟩

theorem sortPair_cases (a b : α) : sortPair a b = (a, b) ∨ sortPair a b = (b, a) := by
  unfold sortPair
  split_ifs
  · exact Or.inl rfl
  · exact Or.inr rfl

theorem sortPair_fst_lt (a b : α) (h : a ≠ b) :
    (sortPair a b).1 < (sortPair a b).2 := by
  unfold sortPair
  split_ifs with h1
  · exact lt_of_le_of_ne h1 h
  · exact lt_of_not_le h1

theorem matchesEdge_key {u v : α} {e : α × α × ℕ} :
    matchesEdge u v e ↔ sortPair e.1 e.2.1 = sortPair u v := by
  constructor
  · rintro (⟨h1, h2⟩ | ⟨h1, h2⟩)
    · rw [h1, h2]
    · rw [h1, h2, sortPair_comm]
  · intro h
    exact sortPair_eq_cases _ _ _ _ h

theorem mem_edgeKeys {G : Graph α} {k : α × α} :
    k ∈ edgeKeys G ↔ ∃ e ∈ G.edges, sortPair e.1 e.2.1 = k := by
  unfold edgeKeys
  simp [List.mem_map]

theorem edgeBetween_iff {G : Graph α} {u v : α} :
    edgeBetween G u v = true ↔ ∃ e ∈ G.edges, matchesEdge u v e := by
  unfold edgeBetween
  simp [List.any_eq_true]

theorem hasNodeB_of_mem_edges {G : Graph α} {e : α × α × ℕ} (he : e ∈ G.edges) :
    hasNodeB G e.1 = true ∧ hasNodeB G e.2.1 = true := by
  unfold hasNodeB
  constructor
  · refine Bool.or_eq_true_iff.mpr (Or.inr ?_)
    exact List.any_eq_true.mpr ⟨e, he, by simp⟩
  · refine Bool.or_eq_true_iff.mpr (Or.inr ?_)
    exact List.any_eq_true.mpr ⟨e, he, by simp⟩

theorem addNode_edges (G : Graph α) (x : α) (a : NodeAttrs) :
    (addNode G x a).edges = G.edges := by
  unfold addNode
  split_ifs <;> rfl

theorem foldlAddNode_edges (data : List (Repo α)) (G : Graph α) :
    (data.foldl
      (fun G r => addNode G r.full_name ⟨r.activity_score, r.star_count, langOf r, none⟩)
      G).edges = G.edges := by
  induction data generalizing G with
  | nil => rfl
  | cons r data ih => rw [List.foldl_cons, ih, addNode_edges]

theorem addEdge_edges_of_fresh (G : Graph α) (u v : α) (w : ℕ)
    (h : ∀ e ∈ G.edges, ¬ matchesEdge u v e) :
    (addEdge G u v w).edges = G.edges ++ [(u, v, w)] := by
  have hnc : ¬ (G.edges.any fun e => decide (matchesEdge u v e)) = true := by
    intro hc
    rcases List.any_eq_true.mp hc with ⟨e, he, hd⟩
    exact h e he (of_decide_eq_true hd)
  unfold addEdge
  rw [if_neg hnc]

theorem edgeKeys_addEdge_fresh {G : Graph α} {u v : α} {w : ℕ}
    (h : ∀ e ∈ G.edges, ¬ matchesEdge u v e) :
    edgeKeys (addEdge G u v w) = edgeKeys G ++ [sortPair u v] := by
  unfold edgeKeys
  rw [addEdge_edges_of_fresh _ _ _ _ h, List.map_append]
  rfl

/-! ### Shared-topic counts -/

theorem sharedCount_eq_card (data : List (Repo α)) (u v : α) :
    sharedCount data u v =
      ((topicsOf data u).toFinset ∩ (topicsOf data v).toFinset).card := by
  unfold sharedCount
  have h1 : ((topicsOf data u).dedup.filter
      (fun t => decide (t ∈ topicsOf data v))).Nodup :=
    (List.nodup_dedup _).filter _
  rw [← List.toFinset_card_of_nodup h1]
  congr 1
  ext t
  simp [List.mem_filter, List.mem_dedup, Finset.mem_inter]

theorem sharedCount_comm (data : List (Repo α)) (u v : α) :
    sharedCount data u v = sharedCount data v u := by
  rw [sharedCount_eq_card, sharedCount_eq_card, Finset.inter_comm]

theorem find?_name_nodup : ∀ (l : List (Repo α)),
    ((l.map Repo.full_name).Nodup) → ∀ r ∈ l,
    l.find? (fun q => decide (q.full_name = r.full_name)) = some r := by
  intro l
  induction l with
  | nil => intro _ r hr; cases hr
  | cons p ps ih =>
    intro hnd r hr
    rcases List.mem_cons.mp hr with rfl | hr'
    · rw [List.find?_cons_of_pos _ (by simp)]
    · have hp : p.full_name ≠ r.full_name := by
        intro he
        have hmem : r.full_name ∈ ps.map Repo.full_name :=
          List.mem_map_of_mem _ hr'
        rw [List.map_cons, List.nodup_cons] at hnd
        exact hnd.1 (he ▸ hmem)
      rw [List.find?_cons_of_neg _ (by simpa using hp)]
      rw [List.map_cons, List.nodup_cons] at hnd
      exact ih hnd.2 r hr'

theorem repoMap_eq_of_nodup {data : List (Repo α)} (h : (namesOf data).Nodup)
    {r : Repo α} (hr : r ∈ data) : repoMap data r.full_name = some r := by
  unfold repoMap
  refine find?_name_nodup data.reverse ?_ r (List.mem_reverse.mpr hr)
  rw [List.map_reverse]
  exact List.nodup_reverse.mpr h

theorem topicsOf_eq_of_nodup {data : List (Repo α)} (h : (namesOf data).Nodup)
    {r : Repo α} (hr : r ∈ data) : topicsOf data r.full_name = r.topics := by
  unfold topicsOf
  rw [repoMap_eq_of_nodup h hr]
  rfl

/-! ### The running invariant of the full-graph builder -/

theorem processPair_inv {data : List (Repo α)} {s : BuildState α}
    (h : FullInv data s) (hc : s.count < max_edges) (r1 r2 : α) :
    FullInv data (processPair data s r1 r2) := by
  unfold processPair
  split_ifs with hk hs
  · exact h
  · have hfresh : ∀ e ∈ s.G.edges, ¬ matchesEdge r1 r2 e := by
      intro e he hm
      have h1 : sortPair e.1 e.2.1 = sortPair r1 r2 := matchesEdge_key.mp hm
      have h2 : sortPair r1 r2 ∈ edgeKeys s.G := mem_edgeKeys.mpr ⟨e, he, h1⟩
      rw [h.keys_eq] at h2
      exact hk h2
    refine ⟨?_, ?_, ?_, ?_, ?_⟩
    · simp [h.count_eq]
    · exact hc
    · rw [edgeKeys_addEdge_fresh hfresh, h.keys_eq]
    · rw [List.nodup_append]
      exact ⟨h.added_nodup, List.nodup_singleton _, by simpa using hk⟩
    · intro e he
      rw [addEdge_edges_of_fresh _ _ _ _ hfresh] at he
      rcases List.mem_append.mp he with he' | he'
      · exact h.weights e he'
      · rcases List.mem_singleton.mp he' with rfl
        exact ⟨hs, rfl⟩
  · exact ⟨h.count_eq, h.count_le, h.keys_eq, h.added_nodup, h.weights⟩

theorem innerLoop_inv {data : List (Repo α)} (r1 : α) :
    ∀ (rs : List α) (s : BuildState α), FullInv data s →
    FullInv data (innerLoop data r1 rs s) := by
  intro rs
  induction rs with
  | nil => intro s h; exact h
  | cons r2 rs ih =>
    intro s h
    unfold innerLoop
    split_ifs with hc
    · exact h
    · exact ih _ (processPair_inv h (not_le.mp hc) r1 r2)

theorem pairLoop_inv {data : List (Repo α)} :
    ∀ (l : List α) (s : BuildState α), FullInv data s →
    FullInv data (pairLoop data l s) := by
  intro l
  induction l with
  | nil => intro s h; exact h
  | cons r1 rs ih =>
    intro s h
    show FullInv data (if max_edges ≤ (innerLoop data r1 rs s).count
      then innerLoop data r1 rs s else pairLoop data rs (innerLoop data r1 rs s))
    split_ifs with hc
    · exact innerLoop_inv r1 rs s h
    · exact ih _ (innerLoop_inv r1 rs s h)

theorem foldPairLoop_inv {data : List (Repo α)} :
    ∀ (es : List (α × List α)) (s : BuildState α), FullInv data s →
    FullInv data (es.foldl (fun s p => pairLoop data (p.2.take 8) s) s) := by
  intro es
  induction es with
  | nil => intro s h; exact h
  | cons p es ih =>
    intro s h
    rw [List.foldl_cons]
    exact ih _ (pairLoop_inv _ _ h)

theorem buildState_inv (data : List (Repo α)) :
    FullInv data (build_full_state data) := by
  unfold build_full_state
  refine foldPairLoop_inv _ _ ?_
  refine ⟨rfl, Nat.zero_le _, ?_, List.nodup_nil, ?_⟩
  · unfold edgeKeys
    rw [foldlAddNode_edges data Graph.empty]
    rfl
  · intro e he
    rw [foldlAddNode_edges data Graph.empty] at he
    cases he

/-! ### C4: edge weights and the global cap -/

/-- C4: every edge of the full graph has weight at least 2, the weight is
the size of the intersection of the endpoints' full topic sets, and the
number of edges never exceeds `max_edges = 1000`. -/
theorem full_graph_weights_and_cap : ∀ (data : List (Repo α)),
    (∀ e ∈ (build_full_graph data).edges,
      2 ≤ e.2.2 ∧ e.2.2 = sharedCount data e.1 e.2.1) ∧
    (build_full_graph data).edges.length ≤ max_edges := by
  intro data
  have h := buildState_inv data
  refine ⟨fun e he => h.weights e he, ?_⟩
  show (build_full_state data).G.edges.length ≤ max_edges
  calc (build_full_state data).G.edges.length
      = (edgeKeys (build_full_state data).G).length := by
        unfold edgeKeys; rw [List.length_map]
    _ = (build_full_state data).added.length := by rw [h.keys_eq]
    _ = (build_full_state data).count := h.count_eq.symm
    _ ≤ max_edges := h.count_le

/-- Witness for C4 on `dW3`: the edge `(1, 3)` has weight 2, the size of
the endpoints' shared topic set, and the edge count is below the cap. -/
theorem full_graph_weights_and_cap_witness :
    ((1, 3, 2) ∈ (build_full_graph dW3).edges ∧
      (2 ≤ (2 : ℕ) ∧ (2 : ℕ) = sharedCount dW3 1 3)) ∧
    (build_full_graph dW3).edges.length ≤ max_edges :=
  ⟨⟨by decide, (full_graph_weights_and_cap dW3).1 (1, 3, 2) (by decide)⟩,
    (full_graph_weights_and_cap dW3).2⟩

end OpenRank

namespace OpenRank

variable {α : Type} [LinearOrder α]

/-! ### Soundness of recorded pairs over clean inputs -/

theorem processPair_sound {data : List (Repo α)} {s : BuildState α}
    (h : AddedSound data s) {r1 r2 : α}
    (h1 : r1 ∈ namesOf data) (h2 : r2 ∈ namesOf data) (hne : r1 ≠ r2) :
    AddedSound data (processPair data s r1 r2) := by
  unfold processPair
  split_ifs with hk hs
  · exact h
  · intro k hkmem
    rcases List.mem_append.mp hkmem with hk' | hk'
    · exact h k hk'
    · rw [List.mem_singleton] at hk'
      exact ⟨r1, r2, h1, h2, hne, hk', hs⟩
  · exact h

theorem innerLoop_sound {data : List (Repo α)} (r1 : α) :
    ∀ (rs : List α) (s : BuildState α), AddedSound data s →
    r1 ∈ namesOf data → (∀ x ∈ rs, x ∈ namesOf data ∧ r1 ≠ x) →
    AddedSound data (innerLoop data r1 rs s) := by
  intro rs
  induction rs with
  | nil => intro s h _ _; exact h
  | cons r2 rs ih =>
    intro s h hr1 hall
    unfold innerLoop
    split_ifs with hc
    · exact h
    · refine ih _ ?_ hr1 (fun x hx => hall x (List.mem_cons_of_mem r2 hx))
      have h2 := hall r2 (List.mem_cons_self r2 rs)
      exact processPair_sound h hr1 h2.1 h2.2

theorem pairLoop_sound {data : List (Repo α)} :
    ∀ (l : List α) (s : BuildState α), AddedSound data s →
    l.Nodup → (∀ x ∈ l, x ∈ namesOf data) →
    AddedSound data (pairLoop data l s) := by
  intro l
  induction l with
  | nil => intro s h _ _; exact h
  | cons r1 rs ih =>
    intro s h hnd hall
    have hs1 : AddedSound data (innerLoop data r1 rs s) := by
      refine innerLoop_sound r1 rs s h (hall r1 (List.mem_cons_self r1 rs)) ?_
      intro x hx
      refine ⟨hall x (List.mem_cons_of_mem r1 hx), ?_⟩
      intro he
      exact (List.nodup_cons.mp hnd).1 (he ▸ hx)
    show AddedSound data (if max_edges ≤ (innerLoop data r1 rs s).count
      then innerLoop data r1 rs s else pairLoop data rs (innerLoop data r1 rs s))
    split_ifs with hc
    · exact hs1
    · exact ih _ hs1 (List.nodup_cons.mp hnd).2
        (fun x hx => hall x (List.mem_cons_of_mem r1 hx))

theorem foldPairLoop_sound {data : List (Repo α)} :
    ∀ (es : List (α × List α)) (s : BuildState α), AddedSound data s →
    (∀ p ∈ es, (p.2.take 8).Nodup ∧ ∀ x ∈ p.2.take 8, x ∈ namesOf data) →
    AddedSound data (es.foldl (fun s p => pairLoop data (p.2.take 8) s) s) := by
  intro es
  induction es with
  | nil => intro s h _; exact h
  | cons p es ih =>
    intro s h hall
    rw [List.foldl_cons]
    have hp := hall p (List.mem_cons_self p es)
    exact ih _ (pairLoop_sound _ _ h hp.1 hp.2)
      (fun q hq => hall q (List.mem_cons_of_mem p hq))

/-! ### Keys of the topic index are distinct -/

theorem keys_topicAppend (m : List (α × List α)) (t₀ name : α)
    (h : (m.map Prod.fst).Nodup) :
    ((topicAppend m t₀ name).map Prod.fst).Nodup := by
  unfold topicAppend
  split_ifs with hany
  · have heq : (m.map (fun p => if p.1 = t₀ then (p.1, p.2 ++ [name]) else p)).map Prod.fst
        = m.map Prod.fst := by
      rw [List.map_map]
      apply List.map_congr_left
      intro p hp
      by_cases hp1 : p.1 = t₀ <;> simp [hp1]
    rw [heq]
    exact h
  · have ht : t₀ ∉ m.map Prod.fst := by
      intro hc
      rcases List.mem_map.mp hc with ⟨p, hp, hp2⟩
      exact hany (List.any_eq_true.mpr ⟨p, hp, by simp [hp2]⟩)
    rw [List.map_append, List.nodup_append]
    exact ⟨h, List.nodup_singleton _, by simpa using ht⟩

theorem keys_repo_fold (l : List α) (name : α) :
    ∀ (m : List (α × List α)), (m.map Prod.fst).Nodup →
    (((l.foldl (fun m' t => topicAppend m' t name) m)).map Prod.fst).Nodup := by
  induction l with
  | nil => intro m h; exact h
  | cons t l ih =>
    intro m h
    rw [List.foldl_cons]
    exact ih _ (keys_topicAppend m t name h)

theorem build_topic_mapping_keys (data : List (Repo α)) :
    ((build_topic_mapping data).map Prod.fst).Nodup := by
  unfold build_topic_mapping
  suffices h : ∀ (m : List (α × List α)), (m.map Prod.fst).Nodup →
      ((data.foldl (fun m r => r.topics.foldl (fun m' t => topicAppend m' t r.full_name) m) m).map
        Prod.fst).Nodup by
    exact h [] List.nodup_nil
  induction data with
  | nil => intro m h; exact h
  | cons r data ih =>
    intro m h
    rw [List.foldl_cons]
    exact ih _ (keys_repo_fold r.topics r.full_name m h)

theorem entry_topicGet {m : List (α × List α)} (hk : (m.map Prod.fst).Nodup)
    {t : α} {l : List α} (hm : (t, l) ∈ m) : topicGet m t = l := by
  induction m with
  | nil => cases hm
  | cons p ps ih =>
    rcases List.mem_cons.mp hm with heq | hm'
    · rw [← heq]
      simp [topicGet_cons]
    · have hp : p.1 ≠ t := by
        intro he
        rw [List.map_cons, List.nodup_cons] at hk
        refine hk.1 ?_
        rw [he]
        exact List.mem_map_of_mem Prod.fst hm'
    -- fall through to the tail
      rw [topicGet_cons, if_neg hp]
      rw [List.map_cons, List.nodup_cons] at hk
      exact ih hk.2 hm'

theorem topicGet_mem_entry {m : List (α × List α)} {t x : α}
    (h : x ∈ topicGet m t) : (t, topicGet m t) ∈ m := by
  unfold topicGet at h ⊢
  cases hf : m.find? (fun p => decide (p.1 = t)) with
  | none => rw [hf] at h; simp at h
  | some p =>
    show (t, (Option.map (fun q => q.2) (some p)).getD []) ∈ m
    have hfind := List.find?_some hf
    have hpt : p.1 = t := by simpa using hfind
    have hp := List.mem_of_find?_eq_some hf
    rw [← hpt]
    simpa using hp

/-! ### Structural edge well-formedness is preserved by the builders -/

theorem edgeKeys_addNode (G : Graph α) (x : α) (a : NodeAttrs) :
    edgeKeys (addNode G x a) = edgeKeys G := by
  unfold edgeKeys
  rw [addNode_edges]

theorem addEdge_goodEdges {G : Graph α} {u v : α} {w : ℕ}
    (h : GoodEdges G) (huv : u ≠ v) : GoodEdges (addEdge G u v w) := by
  by_cases hex : (G.edges.any fun e => decide (matchesEdge u v e)) = true
  · have hedges : (addEdge G u v w).edges =
        G.edges.map (fun e => if matchesEdge u v e then (e.1, e.2.1, w) else e) := by
      unfold addEdge
      rw [if_pos hex]
    constructor
    · have hkeys : edgeKeys (addEdge G u v w) = edgeKeys G := by
        unfold edgeKeys
        rw [hedges, List.map_map]
        apply List.map_congr_left
        intro e he
        by_cases hm : matchesEdge u v e <;> simp [hm]
      rw [hkeys]
      exact h.1
    · intro e he
      rw [hedges] at he
      rcases List.mem_map.mp he with ⟨e', he', heq⟩
      by_cases hm : matchesEdge u v e'
      · rw [if_pos hm] at heq
        rw [← heq]
        exact h.2 e' he'
      · rw [if_neg hm] at heq
        rw [← heq]
        exact h.2 e' he'
  · have hfresh : ∀ e ∈ G.edges, ¬ matchesEdge u v e := by
      intro e he hm
      exact hex (List.any_eq_true.mpr ⟨e, he, decide_eq_true hm⟩)
    constructor
    · rw [edgeKeys_addEdge_fresh hfresh, List.nodup_append]
      refine ⟨h.1, List.nodup_singleton _, ?_⟩
      have hni : sortPair u v ∉ edgeKeys G := by
        intro hc
        rcases mem_edgeKeys.mp hc with ⟨e, he, hkey⟩
        exact hfresh e he (matchesEdge_key.mpr hkey)
      simpa using hni
    · intro e he
      rw [addEdge_edges_of_fresh _ _ _ _ hfresh] at he
      rcases List.mem_append.mp he with he' | he'
      · exact h.2 e he'
      · rw [List.mem_singleton] at he'
        rw [he']
        exact huv

theorem processCandidate_good {s : EgoState α} {name : α} (rr : α)
    (h : GoodEdges s.G) (hname : name ∈ s.visited) :
    GoodEdges (processCandidate s name rr).G ∧
      (processCandidate s name rr).visited = s.visited := by
  unfold processCandidate
  split_ifs with hc hin
  · exact ⟨addEdge_goodEdges h (fun he => hc.1 (he ▸ hname)), rfl⟩
  · exact ⟨addEdge_goodEdges h (fun he => hc.1 (he ▸ hname)), rfl⟩
  · exact ⟨h, rfl⟩

theorem candFold_good (name : α) :
    ∀ (cands : List α) (s : EgoState α), name ∈ s.visited → GoodEdges s.G →
    GoodEdges ((cands.foldl (fun s'' rr => processCandidate s'' name rr) s).G) ∧
      (cands.foldl (fun s'' rr => processCandidate s'' name rr) s).visited = s.visited := by
  intro cands
  induction cands with
  | nil => intro s hv h; exact ⟨h, rfl⟩
  | cons rr cands ih =>
    intro s hv h
    rw [List.foldl_cons]
    have hstep := processCandidate_good rr h hv
    have hrest := ih (processCandidate s name rr) (hstep.2 ▸ hv) hstep.1
    exact ⟨hrest.1, hrest.2.trans hstep.2⟩

theorem topicsFold_good (tm : List (α × List α)) (name : α) :
    ∀ (ts : List α) (s : EgoState α), name ∈ s.visited → GoodEdges s.G →
    GoodEdges ((ts.foldl (fun s' t =>
      ((topicGet tm t).take 5).foldl (fun s'' rr => processCandidate s'' name rr) s') s).G) := by
  intro ts
  induction ts with
  | nil => intro s hv h; exact h
  | cons t ts ih =>
    intro s hv h
    rw [List.foldl_cons]
    have hstep := candFold_good name ((topicGet tm t).take 5) s hv h
    exact ih _ (hstep.2 ▸ hv) hstep.1

theorem addNode_goodEdges {G : Graph α} (h : GoodEdges G) (x : α) (a : NodeAttrs) :
    GoodEdges (addNode G x a) := by
  constructor
  · rw [edgeKeys_addNode]
    exact h.1
  · intro e he
    rw [addNode_edges] at he
    exact h.2 e he

theorem processNode_good {data : List (Repo α)} {tm : List (α × List α)} {level : ℕ}
    {s : EgoState α} {name : α} (h : GoodEdges s.G) :
    GoodEdges (processNode data tm level s name).G := by
  unfold processNode
  split_ifs with hv
  · exact h
  · cases hrm : repoMap data name with
    | none => simp only [hrm]; exact h
    | some repo =>
      simp only [hrm]
      refine topicsFold_good tm name _ _ ?_ ?_
      · exact List.mem_append.mpr (Or.inr (List.mem_singleton.mpr rfl))
      · exact addNode_goodEdges h name _

theorem processRound_good {data : List (Repo α)} {tm : List (α × List α)} {level : ℕ} :
    ∀ (frontier : List α) (st : EgoState α), GoodEdges st.G →
    GoodEdges (processRound data tm level st frontier).G := by
  intro frontier
  induction frontier with
  | nil => intro st h; exact h
  | cons x frontier ih =>
    intro st h
    unfold processRound
    rw [List.foldl_cons]
    exact ih _ (processNode_good h)

theorem egoRounds_cons (data : List (Repo α)) (tm : List (α × List α))
    (l : ℕ) (ls : List ℕ) (st : EgoState α) (current : List α) :
    egoRounds data tm (l :: ls) st current =
      if current = [] ∨ max_nodes ≤ st.visited.length then (st, current)
      else egoRounds data tm ls
        (processRound data tm l { st with next := [] } current)
        (processRound data tm l { st with next := [] } current).next := rfl

theorem egoRounds_good {data : List (Repo α)} {tm : List (α × List α)} :
    ∀ (ls : List ℕ) (st : EgoState α) (current : List α), GoodEdges st.G →
    GoodEdges (egoRounds data tm ls st current).1.G := by
  intro ls
  induction ls with
  | nil => intro st current h; exact h
  | cons l ls ih =>
    intro st current h
    rw [egoRounds_cons]
    split_ifs with hstop
    · exact h
    · exact ih _ _ (processRound_good current { st with next := [] } h)

theorem egoRun_good (data : List (Repo α)) (start : α) :
    GoodEdges (build_4level_run data start).1.G := by
  unfold build_4level_run
  refine egoRounds_good _ _ _ ?_
  exact ⟨List.nodup_nil, fun e he => absurd he (List.not_mem_nil e)⟩

theorem ego_ok_graph {data : List (Repo α)} {start : α} {G : Graph α}
    (h : build_4level_graph data start = Except.ok G) :
    G = (build_4level_run data start).1.G := by
  unfold build_4level_graph build_4level_state at h
  split_ifs at h with hs
  · simpa [Except.map] using h.symm
  · simp [Except.map] at h

theorem buildState_sound (data : List (Repo α))
    (h1 : (namesOf data).Nodup) (h2 : ∀ r ∈ data, r.topics.Nodup) :
    AddedSound data (build_full_state data) := by
  unfold build_full_state
  refine foldPairLoop_sound _ _ (fun k hk => absurd hk (List.not_mem_nil k)) ?_
  intro p hp
  have hget : topicGet (build_topic_mapping data) p.1 = p.2 := by
    refine entry_topicGet (build_topic_mapping_keys data) ?_
    rcases p with ⟨t, l⟩
    exact hp
  have hnd : p.2.Nodup := by
    rw [← hget]
    exact topicGet_build_nodup h1 h2 p.1
  refine ⟨List.Nodup.sublist (List.take_sublist 8 p.2) hnd, ?_⟩
  intro x hx
  have hx2 : x ∈ p.2 := List.mem_of_mem_take hx
  have hx3 : x ∈ topicGet (build_topic_mapping data) p.1 := hget ▸ hx2
  rcases mem_topicGet_build.mp hx3 with ⟨r, hr, hrx, _⟩
  rw [← hrx]
  exact List.mem_map_of_mem Repo.full_name hr

/-! ### C3: the produced graphs are simple on clean inputs -/

/-- C3 (amended): for inputs with pairwise-distinct `full_name`s and
duplicate-free per-record topic lists, every graph produced by either
builder is an undirected simple graph: no self-loops, at most one edge per
unordered endpoint pair, and every edge endpoint is in the node set (the
ego-network half holds for arbitrary inputs).  For degenerate inputs with
duplicated topics the full graph can contain a self-loop. -/
theorem graphs_simple_of_clean_input : ∀ (data : List (Repo α)),
    (namesOf data).Nodup → (∀ r ∈ data, r.topics.Nodup) →
    SimpleOK (build_full_graph data) ∧
    (∀ (start : α) (G : Graph α),
      build_4level_graph data start = Except.ok G → SimpleOK G) := by
  intro data h1 h2
  constructor
  · have hinv := buildState_inv data
    have hsound : AddedSound data (build_full_state data) := buildState_sound data h1 h2
    refine ⟨?_, ?_, ?_⟩
    · intro e he
      have hkey : sortPair e.1 e.2.1 ∈ (build_full_state data).added := by
        rw [← hinv.keys_eq]
        exact mem_edgeKeys.mpr ⟨e, he, rfl⟩
      rcases hsound _ hkey with ⟨u, v, _, _, huv, hk, _⟩
      rcases sortPair_eq_cases _ _ _ _ hk with ⟨hu, hv⟩ | ⟨hu, hv⟩
      · rw [hu, hv]; exact huv
      · rw [hu, hv]; exact huv.symm
    · show (edgeKeys (build_full_state data).G).Nodup
      rw [hinv.keys_eq]
      exact hinv.added_nodup
    · exact fun e he => hasNodeB_of_mem_edges he
  · intro start G hok
    rw [ego_ok_graph hok]
    have hgood := egoRun_good data start
    exact ⟨hgood.2, hgood.1, fun e he => hasNodeB_of_mem_edges he⟩

/-- Witness for C3 on `dW3` with ego seed `1`. -/
theorem graphs_simple_witness :
    (namesOf dW3).Nodup ∧ (∀ r ∈ dW3, r.topics.Nodup) ∧
    SimpleOK (build_full_graph dW3) ∧
    build_4level_graph dW3 1 = Except.ok ((build_4level_run dW3 1).1.G) ∧
    SimpleOK ((build_4level_run dW3 1).1.G) :=
  ⟨by decide, by decide,
    (graphs_simple_of_clean_input dW3 (by decide) (by decide)).1,
    rfl,
    (graphs_simple_of_clean_input dW3 (by decide) (by decide)).2 1 _ rfl⟩

end OpenRank

namespace OpenRank

variable {α : Type} [LinearOrder α]

/-! ### Coverage: every reachable qualifying pair is recorded or the cap is hit -/

theorem processPair_mono (data : List (Repo α)) (s : BuildState α) (r1 r2 : α) :
    s.added ⊆ (processPair data s r1 r2).added ∧
      s.count ≤ (processPair data s r1 r2).count := by
  unfold processPair
  split_ifs with hk hs
  · exact ⟨List.Subset.refl _, le_refl _⟩
  · exact ⟨fun k hk' => List.mem_append.mpr (Or.inl hk'), Nat.le_succ _⟩
  · exact ⟨List.Subset.refl _, le_refl _⟩

theorem innerLoop_mono (data : List (Repo α)) (r1 : α) :
    ∀ (rs : List α) (s : BuildState α),
    s.added ⊆ (innerLoop data r1 rs s).added ∧
      s.count ≤ (innerLoop data r1 rs s).count := by
  intro rs
  induction rs with
  | nil => intro s; exact ⟨List.Subset.refl _, le_refl _⟩
  | cons r2 rs ih =>
    intro s
    unfold innerLoop
    split_ifs with hc
    · exact ⟨List.Subset.refl _, le_refl _⟩
    · have h1 := processPair_mono data s r1 r2
      have h2 := ih (processPair data s r1 r2)
      exact ⟨List.Subset.trans h1.1 h2.1, le_trans h1.2 h2.2⟩

theorem pairLoop_cons (data : List (Repo α)) (r1 : α) (rs : List α) (s : BuildState α) :
    pairLoop data (r1 :: rs) s =
      if max_edges ≤ (innerLoop data r1 rs s).count then innerLoop data r1 rs s
      else pairLoop data rs (innerLoop data r1 rs s) := rfl

theorem pairLoop_mono (data : List (Repo α)) :
    ∀ (l : List α) (s : BuildState α),
    s.added ⊆ (pairLoop data l s).added ∧ s.count ≤ (pairLoop data l s).count := by
  intro l
  induction l with
  | nil => intro s; exact ⟨List.Subset.refl _, le_refl _⟩
  | cons r1 rs ih =>
    intro s
    rw [pairLoop_cons]
    have h1 := innerLoop_mono data r1 rs s
    split_ifs with hc
    · exact h1
    · have h2 := ih (innerLoop data r1 rs s)
      exact ⟨List.Subset.trans h1.1 h2.1, le_trans h1.2 h2.2⟩

theorem foldPairLoop_mono (data : List (Repo α)) :
    ∀ (es : List (α × List α)) (s : BuildState α),
    s.added ⊆ (es.foldl (fun s p => pairLoop data (p.2.take 8) s) s).added ∧
      s.count ≤ (es.foldl (fun s p => pairLoop data (p.2.take 8) s) s).count := by
  intro es
  induction es with
  | nil => intro s; exact ⟨List.Subset.refl _, le_refl _⟩
  | cons p es ih =>
    intro s
    rw [List.foldl_cons]
    have h1 := pairLoop_mono data (p.2.take 8) s
    have h2 := ih (pairLoop data (p.2.take 8) s)
    exact ⟨List.Subset.trans h1.1 h2.1, le_trans h1.2 h2.2⟩

theorem innerLoop_cov {data : List (Repo α)} (r1 : α) :
    ∀ (rs : List α) (s : BuildState α), FullInv data s →
    ∀ x ∈ rs, 2 ≤ sharedCount data r1 x →
    sortPair r1 x ∈ (innerLoop data r1 rs s).added ∨
      (innerLoop data r1 rs s).count = max_edges := by
  intro rs
  induction rs with
  | nil => intro s hinv x hx; cases hx
  | cons r2 rs ih =>
    intro s hinv x hx hsh
    unfold innerLoop
    split_ifs with hc
    · exact Or.inr (le_antisymm hinv.count_le hc)
    · rcases List.mem_cons.mp hx with rfl | hx'
      · have hkey : sortPair r1 x ∈ (processPair data s r1 x).added := by
          unfold processPair
          split_ifs with hk
          · exact hk
          · exact List.mem_append.mpr (Or.inr (List.mem_singleton.mpr rfl))
        exact Or.inl ((innerLoop_mono data r1 rs (processPair data s r1 x)).1 hkey)
      · exact ih (processPair data s r1 r2)
          (processPair_inv hinv (not_le.mp hc) r1 r2) x hx' hsh

theorem pairLoop_cov {data : List (Repo α)} :
    ∀ (l : List α) (s : BuildState α), FullInv data s →
    ∀ u v, u ∈ l → v ∈ l → u ≠ v → 2 ≤ sharedCount data u v →
    sortPair u v ∈ (pairLoop data l s).added ∨
      (pairLoop data l s).count = max_edges := by
  intro l
  induction l with
  | nil => intro s hinv u v hu; cases hu
  | cons r1 rs ih =>
    intro s hinv u v hu hv huv hsh
    have hinv1 : FullInv data (innerLoop data r1 rs s) := innerLoop_inv r1 rs s hinv
    rw [pairLoop_cons]
    split_ifs with hc
    · exact Or.inr (le_antisymm hinv1.count_le hc)
    · have hmono := pairLoop_mono data rs (innerLoop data r1 rs s)
      rcases List.mem_cons.mp hu with rfl | hu'
      · rcases List.mem_cons.mp hv with rfl | hv'
        · exact absurd rfl huv
        · rcases innerLoop_cov u rs s hinv v hv' hsh with hk | hcnt
          · exact Or.inl (hmono.1 hk)
          · exact absurd (le_of_eq hcnt.symm) hc
      · rcases List.mem_cons.mp hv with rfl | hv'
        · have hsh' : 2 ≤ sharedCount data v u := by
            rw [sharedCount_comm]; exact hsh
          rcases innerLoop_cov v rs s hinv u hu' hsh' with hk | hcnt
          · rw [sortPair_comm] at hk
            exact Or.inl (hmono.1 hk)
          · exact absurd (le_of_eq hcnt.symm) hc
        · exact ih (innerLoop data r1 rs s) hinv1 u v hu' hv' huv hsh

theorem foldPairLoop_cov {data : List (Repo α)} :
    ∀ (es : List (α × List α)) (s : BuildState α), FullInv data s →
    ∀ p ∈ es, ∀ u v, u ∈ p.2.take 8 → v ∈ p.2.take 8 → u ≠ v →
    2 ≤ sharedCount data u v →
    sortPair u v ∈ (es.foldl (fun s p => pairLoop data (p.2.take 8) s) s).added ∨
      (es.foldl (fun s p => pairLoop data (p.2.take 8) s) s).count = max_edges := by
  intro es
  induction es with
  | nil => intro s hinv p hp; cases hp
  | cons q es ih =>
    intro s hinv p hp u v hu hv huv hsh
    rw [List.foldl_cons]
    have hinv1 : FullInv data (pairLoop data (q.2.take 8) s) :=
      pairLoop_inv (q.2.take 8) s hinv
    rcases List.mem_cons.mp hp with rfl | hp'
    · have hcov := pairLoop_cov (p.2.take 8) s hinv u v hu hv huv hsh
      have hmono := foldPairLoop_mono data es (pairLoop data (p.2.take 8) s)
      rcases hcov with hk | hcnt
      · exact Or.inl (hmono.1 hk)
      · refine Or.inr (le_antisymm (foldPairLoop_inv es _ hinv1).count_le ?_)
        rw [← hcnt]
        exact hmono.2
    · exact ih (pairLoop data (q.2.take 8) s) hinv1 p hp' u v hu hv huv hsh

theorem mem_qualifyingKeys {data : List (Repo α)} {k : α × α} :
    k ∈ qualifyingKeys data ↔ k.1 ∈ namesOf data ∧ k.2 ∈ namesOf data ∧
      k.1 < k.2 ∧ 2 ≤ sharedCount data k.1 k.2 := by
  unfold qualifyingKeys qualifyingList
  rw [List.mem_toFinset, List.mem_flatMap]
  constructor
  · rintro ⟨u, hu, hk⟩
    rw [List.mem_filterMap] at hk
    rcases hk with ⟨v, hv, hif⟩
    by_cases hP : u < v ∧ 2 ≤ sharedCount data u v
    · rw [if_pos hP] at hif
      injection hif with hif'
      rw [← hif']
      exact ⟨hu, hv, hP.1, hP.2⟩
    · rw [if_neg hP] at hif
      cases hif
  · rintro ⟨h1, h2, h3, h4⟩
    refine ⟨k.1, h1, ?_⟩
    rw [List.mem_filterMap]
    refine ⟨k.2, h2, ?_⟩
    rw [if_pos ⟨h3, h4⟩]

theorem sortPair_mem_qualifying {data : List (Repo α)} {u v : α}
    (hu : u ∈ namesOf data) (hv : v ∈ namesOf data) (huv : u ≠ v)
    (hsh : 2 ≤ sharedCount data u v) :
    sortPair u v ∈ qualifyingKeys data := by
  rw [mem_qualifyingKeys]
  have hlt := sortPair_fst_lt u v huv
  rcases sortPair_cases u v with hsp | hsp <;> rw [hsp] at hlt ⊢
  · exact ⟨hu, hv, hlt, hsh⟩
  · refine ⟨hv, hu, hlt, ?_⟩
    rw [sharedCount_comm]
    exact hsh

theorem build_full_state_eq (data : List (Repo α)) :
    build_full_state data =
      (build_topic_mapping data).foldl (fun s p => pairLoop data (p.2.take 8) s)
        ⟨data.foldl
          (fun G r => addNode G r.full_name ⟨r.activity_score, r.star_count, langOf r, none⟩)
          Graph.empty, [], 0, []⟩ := rfl

theorem added_edgeBetween {data : List (Repo α)} {u v : α}
    (hk : sortPair u v ∈ (build_full_state data).added) :
    edgeBetween (build_full_graph data) u v = true := by
  have hmem : sortPair u v ∈ edgeKeys (build_full_state data).G := by
    rw [(buildState_inv data).keys_eq]
    exact hk
  rcases mem_edgeKeys.mp hmem with ⟨e, he, hkeq⟩
  exact edgeBetween_iff.mpr ⟨e, he, matchesEdge_key.mpr hkeq⟩

/-! ### C5: edge presence exactly matches qualification on clean bounded inputs -/

/-- C5 (amended): the full graph never has an edge between repositories
sharing fewer than 2 topics (unconditionally); and for inputs with
pairwise-distinct `full_name`s, duplicate-free per-record topic lists, no
topic indexing more than 8 repositories, and at most 1000 qualifying
pairs, every pair of distinct repositories sharing at least 2 topics gets
an edge.  With duplicated topics the 8-entry truncation can drop a
repository and lose a qualifying pair. -/
theorem full_graph_edge_iff_shared : ∀ (data : List (Repo α)),
    (∀ u v, edgeBetween (build_full_graph data) u v = true →
      2 ≤ sharedCount data u v) ∧
    ((namesOf data).Nodup → (∀ r ∈ data, r.topics.Nodup) →
      (∀ p ∈ build_topic_mapping data, p.2.dedup.length ≤ 8) →
      (qualifyingKeys data).card ≤ max_edges →
      ∀ u v, u ∈ namesOf data → v ∈ namesOf data → u ≠ v →
        2 ≤ sharedCount data u v →
        edgeBetween (build_full_graph data) u v = true) := by
  intro data
  constructor
  · intro u v hbe
    rcases edgeBetween_iff.mp hbe with ⟨e, he, hm⟩
    have hw := (buildState_inv data).weights e he
    rcases hm with ⟨he1, he2⟩ | ⟨he1, he2⟩
    · rw [← he1, ← he2, ← hw.2]
      exact hw.1
    · rw [← he2, ← he1, sharedCount_comm, ← hw.2]
      exact hw.1
  · intro h1 h2 h3 h4 u v hu hv huv hsh
    have hpos : 0 < sharedCount data u v := lt_of_lt_of_le (by norm_num) hsh
    have hex : ∃ t, t ∈ topicsOf data u ∧ t ∈ topicsOf data v := by
      unfold sharedCount at hpos
      have hne := List.length_pos.mp hpos
      rcases List.exists_mem_of_ne_nil _ hne with ⟨t, htf⟩
      have hmf := List.mem_filter.mp htf
      exact ⟨t, List.mem_dedup.mp hmf.1, of_decide_eq_true hmf.2⟩
    rcases hex with ⟨t, htu, htv⟩
    have hu' := hu
    have hv' := hv
    unfold namesOf at hu' hv'
    rcases List.mem_map.mp hu' with ⟨ru, hru, hruname⟩
    rcases List.mem_map.mp hv' with ⟨rv, hrv, hrvname⟩
    have htopu : t ∈ ru.topics := by
      rw [← topicsOf_eq_of_nodup h1 hru, hruname]
      exact htu
    have htopv : t ∈ rv.topics := by
      rw [← topicsOf_eq_of_nodup h1 hrv, hrvname]
      exact htv
    have humem : u ∈ topicGet (build_topic_mapping data) t :=
      mem_topicGet_build.mpr ⟨ru, hru, hruname, htopu⟩
    have hvmem : v ∈ topicGet (build_topic_mapping data) t :=
      mem_topicGet_build.mpr ⟨rv, hrv, hrvname, htopv⟩
    have hentry : (t, topicGet (build_topic_mapping data) t) ∈ build_topic_mapping data :=
      topicGet_mem_entry humem
    have hnd : (topicGet (build_topic_mapping data) t).Nodup :=
      topicGet_build_nodup h1 h2 t
    have hlen : (topicGet (build_topic_mapping data) t).length ≤ 8 := by
      have h8 := h3 _ hentry
      rw [List.Nodup.dedup hnd] at h8
      exact h8
    have htake : (topicGet (build_topic_mapping data) t).take 8 =
        topicGet (build_topic_mapping data) t := List.take_of_length_le hlen
    have hinit : FullInv data
        ⟨data.foldl
          (fun G r => addNode G r.full_name ⟨r.activity_score, r.star_count, langOf r, none⟩)
          Graph.empty, [], 0, []⟩ := by
      refine ⟨rfl, Nat.zero_le _, ?_, List.nodup_nil, ?_⟩
      · unfold edgeKeys
        rw [foldlAddNode_edges data Graph.empty]
        rfl
      · intro e he
        rw [foldlAddNode_edges data Graph.empty] at he
        cases he
    have hcov := foldPairLoop_cov (build_topic_mapping data) _ hinit
      (t, topicGet (build_topic_mapping data) t) hentry u v
      (by rw [htake]; exact humem) (by rw [htake]; exact hvmem) huv hsh
    rw [← build_full_state_eq] at hcov
    rcases hcov with hk | hcnt
    · exact added_edgeBetween hk
    · have hsound := buildState_sound data h1 h2
      have hsub : (build_full_state data).added.toFinset ⊆ qualifyingKeys data := by
        intro k hk
        rw [List.mem_toFinset] at hk
        rcases hsound k hk with ⟨a, b, ha, hb, hab, hkey, hsh2⟩
        rw [hkey]
        exact sortPair_mem_qualifying ha hb hab hsh2
      have hcard : (build_full_state data).added.toFinset.card = max_edges := by
        rw [List.toFinset_card_of_nodup (buildState_inv data).added_nodup,
          ← (buildState_inv data).count_eq]
        exact hcnt
      have heq : (build_full_state data).added.toFinset = qualifyingKeys data := by
        refine Finset.eq_of_subset_of_card_le hsub ?_
        rw [hcard]
        exact h4
      have hq : sortPair u v ∈ qualifyingKeys data :=
        sortPair_mem_qualifying hu hv huv hsh
      rw [← heq, List.mem_toFinset] at hq
      exact added_edgeBetween hq

/-- Witness for C5 on `dW3`: the qualifying pair `(1, 3)` has its edge and
the hypotheses of the amended claim all hold. -/
theorem full_graph_edge_iff_shared_witness :
    (edgeBetween (build_full_graph dW3) 1 3 = true → 2 ≤ sharedCount dW3 1 3) ∧
    ((namesOf dW3).Nodup ∧ (∀ r ∈ dW3, r.topics.Nodup) ∧
      (∀ p ∈ build_topic_mapping dW3, p.2.dedup.length ≤ 8) ∧
      (qualifyingKeys dW3).card ≤ max_edges ∧
      edgeBetween (build_full_graph dW3) 1 3 = true) :=
  ⟨fun h => (full_graph_edge_iff_shared dW3).1 1 3 h,
   ⟨by decide, by decide, by decide, by decide,
    (full_graph_edge_iff_shared dW3).2 (by decide) (by decide) (by decide)
      (by decide) 1 3 (by decide) (by decide) (by decide) (by decide)⟩⟩

end OpenRank

namespace OpenRank

variable {α : Type} [LinearOrder α]

/-! ### C6: each pair's intersection is computed at most once on clean inputs -/

theorem sharedCount_sortPair (data : List (Repo α)) (a b : α) :
    sharedCount data (sortPair a b).1 (sortPair a b).2 = sharedCount data a b := by
  rcases sortPair_cases a b with h | h <;> rw [h]
  exact sharedCount_comm data b a

theorem pairKeys_mem_exists {l : List α} {k : α × α} (h : k ∈ pairKeys l) :
    ∃ a b, a ∈ l ∧ b ∈ l ∧ k = sortPair a b := by
  induction l with
  | nil => cases h
  | cons x xs ih =>
    rw [pairKeys, List.mem_append] at h
    rcases h with h' | h'
    · rcases List.mem_map.mp h' with ⟨y, hy, hk⟩
      exact ⟨x, y, List.mem_cons_self x xs, List.mem_cons_of_mem x hy, hk.symm⟩
    · rcases ih h' with ⟨a, b, ha, hb, hk⟩
      exact ⟨a, b, List.mem_cons_of_mem x ha, List.mem_cons_of_mem x hb, hk⟩

theorem pairKeys_head {r1 : α} {rs : List α} {x : α} (hx : x ∈ rs) :
    sortPair r1 x ∈ pairKeys (r1 :: rs) := by
  rw [pairKeys, List.mem_append]
  exact Or.inl (List.mem_map_of_mem _ hx)

theorem pairKeys_tail {r1 : α} {rs : List α} {k : α × α} (hk : k ∈ pairKeys rs) :
    k ∈ pairKeys (r1 :: rs) := by
  rw [pairKeys, List.mem_append]
  exact Or.inr hk

theorem processPair_cases (data : List (Repo α)) (s : BuildState α) (r1 r2 : α) :
    (sortPair r1 r2 ∈ s.added ∧ processPair data s r1 r2 = s) ∨
    (sortPair r1 r2 ∉ s.added ∧ 2 ≤ sharedCount data r1 r2 ∧
      processPair data s r1 r2 =
        { G := addEdge s.G r1 r2 (sharedCount data r1 r2)
          added := s.added ++ [sortPair r1 r2]
          count := s.count + 1
          evalLog := s.evalLog ++ [sortPair r1 r2] }) ∨
    (sortPair r1 r2 ∉ s.added ∧ sharedCount data r1 r2 < 2 ∧
      processPair data s r1 r2 = { s with evalLog := s.evalLog ++ [sortPair r1 r2] }) := by
  unfold processPair
  split_ifs with hk hs
  · exact Or.inl ⟨hk, rfl⟩
  · exact Or.inr (Or.inl ⟨hk, hs, rfl⟩)
  · exact Or.inr (Or.inr ⟨hk, not_le.mp hs, rfl⟩)

theorem sortPair_head_ne {r1 r2 x : α} (hx : x ≠ r2) (h1 : r1 ≠ r2) :
    sortPair r1 x ≠ sortPair r1 r2 := by
  intro he
  rcases sortPair_eq_cases _ _ _ _ he with ⟨_, hb⟩ | ⟨ha, _⟩
  · exact hx hb
  · exact h1 ha

theorem innerLoop_evalInv {data : List (Repo α)} (r1 : α) :
    ∀ (rs : List α) (s : BuildState α),
    s.evalLog.Nodup →
    (∀ k ∈ s.evalLog, 2 ≤ sharedCount data k.1 k.2 → k ∈ s.added) →
    (∀ x ∈ rs, sharedCount data r1 x < 2 → sortPair r1 x ∉ s.evalLog) →
    rs.Nodup → r1 ∉ rs →
    (innerLoop data r1 rs s).evalLog.Nodup ∧
    (∀ k ∈ (innerLoop data r1 rs s).evalLog,
      2 ≤ sharedCount data k.1 k.2 → k ∈ (innerLoop data r1 rs s).added) ∧
    (∀ k ∈ (innerLoop data r1 rs s).evalLog,
      k ∈ s.evalLog ∨ ∃ x ∈ rs, k = sortPair r1 x) := by
  intro rs
  induction rs with
  | nil =>
    intro s hnd hpass _ _ _
    exact ⟨hnd, hpass, fun k hk => Or.inl hk⟩
  | cons r2 rs ih =>
    intro s hnd hpass hfresh hrsnd hr1
    unfold innerLoop
    split_ifs with hc
    · exact ⟨hnd, hpass, fun k hk => Or.inl hk⟩
    · have hr1r2 : r1 ≠ r2 := fun he => hr1 (he ▸ List.mem_cons_self r2 rs)
      have hr2rs : r2 ∉ rs := (List.nodup_cons.mp hrsnd).1
      have hshk : sharedCount data (sortPair r1 r2).1 (sortPair r1 r2).2 =
          sharedCount data r1 r2 := sharedCount_sortPair data r1 r2
      rcases processPair_cases data s r1 r2 with ⟨_, heq⟩ | ⟨hkadd, hsh, heq⟩ | ⟨hkadd, hsh, heq⟩
      · rw [heq]
        have hres := ih s hnd hpass
          (fun x hx => hfresh x (List.mem_cons_of_mem r2 hx))
          (List.nodup_cons.mp hrsnd).2
          (fun hx => hr1 (List.mem_cons_of_mem r2 hx))
        refine ⟨hres.1, hres.2.1, ?_⟩
        intro k hk
        rcases hres.2.2 k hk with h' | ⟨x, hx, hk'⟩
        · exact Or.inl h'
        · exact Or.inr ⟨x, List.mem_cons_of_mem r2 hx, hk'⟩
      · -- evaluated and passed: the key is fresh in the log and lands in added
        have hknlog : sortPair r1 r2 ∉ s.evalLog := by
          intro hin
          have := hpass _ hin
          rw [hshk] at this
          exact hkadd (this hsh)
        have hnd1 : (s.evalLog ++ [sortPair r1 r2]).Nodup := by
          rw [List.nodup_append]
          exact ⟨hnd, List.nodup_singleton _, by simpa using hknlog⟩
        have hpass1 : ∀ k ∈ s.evalLog ++ [sortPair r1 r2],
            2 ≤ sharedCount data k.1 k.2 → k ∈ s.added ++ [sortPair r1 r2] := by
          intro k hk hks
          rcases List.mem_append.mp hk with h' | h'
          · exact List.mem_append.mpr (Or.inl (hpass k h' hks))
          · exact List.mem_append.mpr (Or.inr h')
        have hfresh1 : ∀ x ∈ rs, sharedCount data r1 x < 2 →
            sortPair r1 x ∉ s.evalLog ++ [sortPair r1 r2] := by
          intro x hx hxs hin
          rcases List.mem_append.mp hin with h' | h'
          · exact hfresh x (List.mem_cons_of_mem r2 hx) hxs h'
          · rw [List.mem_singleton] at h'
            exact sortPair_head_ne (fun he => hr2rs (by rw [← he]; exact hx)) hr1r2 h'
        rw [heq]
        have hres := ih
          { G := addEdge s.G r1 r2 (sharedCount data r1 r2)
            added := s.added ++ [sortPair r1 r2]
            count := s.count + 1
            evalLog := s.evalLog ++ [sortPair r1 r2] }
          hnd1 hpass1 hfresh1 (List.nodup_cons.mp hrsnd).2
          (fun hx => hr1 (List.mem_cons_of_mem r2 hx))
        refine ⟨hres.1, hres.2.1, ?_⟩
        intro k hk
        rcases hres.2.2 k hk with h' | ⟨x, hx, hk'⟩
        · rcases List.mem_append.mp h' with h'' | h''
          · exact Or.inl h''
          · rw [List.mem_singleton] at h''
            exact Or.inr ⟨r2, List.mem_cons_self r2 rs, h''⟩
        · exact Or.inr ⟨x, List.mem_cons_of_mem r2 hx, hk'⟩
      · -- evaluated and failed: the key is fresh in the log, added unchanged
        have hknlog : sortPair r1 r2 ∉ s.evalLog := hfresh r2 (List.mem_cons_self r2 rs) hsh
        have hnd1 : (s.evalLog ++ [sortPair r1 r2]).Nodup := by
          rw [List.nodup_append]
          exact ⟨hnd, List.nodup_singleton _, by simpa using hknlog⟩
        have hpass1 : ∀ k ∈ s.evalLog ++ [sortPair r1 r2],
            2 ≤ sharedCount data k.1 k.2 → k ∈ s.added := by
          intro k hk hks
          rcases List.mem_append.mp hk with h' | h'
          · exact hpass k h' hks
          · rw [List.mem_singleton] at h'
            rw [h', hshk] at hks
            exact absurd hks (not_le.mpr hsh)
        have hfresh1 : ∀ x ∈ rs, sharedCount data r1 x < 2 →
            sortPair r1 x ∉ s.evalLog ++ [sortPair r1 r2] := by
          intro x hx hxs hin
          rcases List.mem_append.mp hin with h' | h'
          · exact hfresh x (List.mem_cons_of_mem r2 hx) hxs h'
          · rw [List.mem_singleton] at h'
            exact sortPair_head_ne (fun he => hr2rs (by rw [← he]; exact hx)) hr1r2 h'
        rw [heq]
        have hres := ih { s with evalLog := s.evalLog ++ [sortPair r1 r2] }
          hnd1 hpass1 hfresh1 (List.nodup_cons.mp hrsnd).2
          (fun hx => hr1 (List.mem_cons_of_mem r2 hx))
        refine ⟨hres.1, hres.2.1, ?_⟩
        intro k hk
        rcases hres.2.2 k hk with h' | ⟨x, hx, hk'⟩
        · rcases List.mem_append.mp h' with h'' | h''
          · exact Or.inl h''
          · rw [List.mem_singleton] at h''
            exact Or.inr ⟨r2, List.mem_cons_self r2 rs, h''⟩
        · exact Or.inr ⟨x, List.mem_cons_of_mem r2 hx, hk'⟩

theorem pairLoop_evalInv {data : List (Repo α)} :
    ∀ (l : List α) (s : BuildState α),
    s.evalLog.Nodup →
    (∀ k ∈ s.evalLog, 2 ≤ sharedCount data k.1 k.2 → k ∈ s.added) →
    (∀ k ∈ pairKeys l, sharedCount data k.1 k.2 < 2 → k ∉ s.evalLog) →
    l.Nodup →
    (pairLoop data l s).evalLog.Nodup ∧
    (∀ k ∈ (pairLoop data l s).evalLog,
      2 ≤ sharedCount data k.1 k.2 → k ∈ (pairLoop data l s).added) ∧
    (∀ k ∈ (pairLoop data l s).evalLog, k ∈ s.evalLog ∨ k ∈ pairKeys l) := by
  intro l
  induction l with
  | nil =>
    intro s hnd hpass _ _
    exact ⟨hnd, hpass, fun k hk => Or.inl hk⟩
  | cons r1 rs ih =>
    intro s hnd hpass hfresh hlnd
    have hr1 : r1 ∉ rs := (List.nodup_cons.mp hlnd).1
    have hinner := innerLoop_evalInv r1 rs s hnd hpass
      (fun x hx hxs => hfresh (sortPair r1 x) (pairKeys_head hx)
        (by rw [sharedCount_sortPair]; exact hxs))
      (List.nodup_cons.mp hlnd).2 hr1
    rw [pairLoop_cons]
    split_ifs with hc
    · refine ⟨hinner.1, hinner.2.1, ?_⟩
      intro k hk
      rcases hinner.2.2 k hk with h' | ⟨x, hx, hk'⟩
      · exact Or.inl h'
      · exact Or.inr (hk' ▸ pairKeys_head hx)
    · have hfresh1 : ∀ k ∈ pairKeys rs, sharedCount data k.1 k.2 < 2 →
          k ∉ (innerLoop data r1 rs s).evalLog := by
        intro k hk hks hin
        rcases hinner.2.2 k hin with h' | ⟨x, hx, hk'⟩
        · exact hfresh k (pairKeys_tail hk) hks h'
        · rcases pairKeys_mem_exists hk with ⟨a, b, ha, hb, hab⟩
          rw [hk'] at hab
          rcases sortPair_eq_cases _ _ _ _ hab with ⟨h1, _⟩ | ⟨h1, _⟩
          · exact hr1 (h1 ▸ ha)
          · exact hr1 (h1 ▸ hb)
      have hres := ih (innerLoop data r1 rs s) hinner.1 hinner.2.1 hfresh1
        (List.nodup_cons.mp hlnd).2
      refine ⟨hres.1, hres.2.1, ?_⟩
      intro k hk
      rcases hres.2.2 k hk with h' | h'
      · rcases hinner.2.2 k h' with h'' | ⟨x, hx, hk'⟩
        · exact Or.inl h''
        · exact Or.inr (hk' ▸ pairKeys_head hx)
      · exact Or.inr (pairKeys_tail h')

theorem foldPairLoop_evalInv {data : List (Repo α)} :
    ∀ (es : List (α × List α)) (s : BuildState α),
    (es.map Prod.fst).Nodup →
    (∀ p ∈ es, (p.2.take 8).Nodup) →
    (∀ p ∈ es, ∀ q ∈ es, p ≠ q → ∀ k, k ∈ pairKeys (p.2.take 8) →
      k ∈ pairKeys (q.2.take 8) → 2 ≤ sharedCount data k.1 k.2) →
    s.evalLog.Nodup →
    (∀ k ∈ s.evalLog, 2 ≤ sharedCount data k.1 k.2 → k ∈ s.added) →
    (∀ k ∈ s.evalLog, sharedCount data k.1 k.2 < 2 →
      ∀ p ∈ es, k ∉ pairKeys (p.2.take 8)) →
    ((es.foldl (fun s p => pairLoop data (p.2.take 8) s) s).evalLog.Nodup ∧
     (∀ k ∈ (es.foldl (fun s p => pairLoop data (p.2.take 8) s) s).evalLog,
       2 ≤ sharedCount data k.1 k.2 →
       k ∈ (es.foldl (fun s p => pairLoop data (p.2.take 8) s) s).added)) := by
  intro es
  induction es with
  | nil => intro s _ _ _ hnd hpass _; exact ⟨hnd, hpass⟩
  | cons q es ih =>
    intro s hkeys htake hdisj hnd hpass hstart
    rw [List.foldl_cons]
    have hqmem : q ∈ q :: es := List.mem_cons_self q es
    have hql := pairLoop_evalInv (q.2.take 8) s hnd hpass
      (fun k hk hks hin => hstart k hin hks q hqmem hk)
      (htake q hqmem)
    rw [List.map_cons, List.nodup_cons] at hkeys
    refine ih (pairLoop data (q.2.take 8) s) hkeys.2
      (fun p hp => htake p (List.mem_cons_of_mem q hp))
      (fun p hp p' hp' hne k hk hk' => hdisj p (List.mem_cons_of_mem q hp) p'
        (List.mem_cons_of_mem q hp') hne k hk hk')
      hql.1 hql.2.1 ?_
    intro k hk hks p hp hkp
    rcases hql.2.2 k hk with h' | h'
    · exact hstart k h' hks p (List.mem_cons_of_mem q hp) hkp
    · have hqp : q ≠ p := by
        intro he
        refine hkeys.1 ?_
        rw [he]
        exact List.mem_map_of_mem Prod.fst hp
      have hge := hdisj q hqmem p (List.mem_cons_of_mem q hp) hqp k h' hkp
      exact absurd hge (not_le.mpr hks)

end OpenRank

namespace OpenRank

variable {α : Type} [LinearOrder α]

theorem topic_mem_topicsOf {data : List (Repo α)} (h1 : (namesOf data).Nodup)
    {t x : α} (hx : x ∈ topicGet (build_topic_mapping data) t) :
    t ∈ topicsOf data x := by
  rcases mem_topicGet_build.mp hx with ⟨r, hr, hrx, ht⟩
  rw [← hrx, topicsOf_eq_of_nodup h1 hr]
  exact ht

theorem entry_pairKeys_comp {data : List (Repo α)} :
    ∀ e ∈ build_topic_mapping data, ∀ k ∈ pairKeys (e.2.take 8),
    k.1 ∈ topicGet (build_topic_mapping data) e.1 ∧
      k.2 ∈ topicGet (build_topic_mapping data) e.1 := by
  intro e he k hk
  rcases pairKeys_mem_exists hk with ⟨a, b, ha, hb, hab⟩
  have hget : topicGet (build_topic_mapping data) e.1 = e.2 := by
    refine entry_topicGet (build_topic_mapping_keys data) ?_
    rcases e with ⟨t, l⟩
    exact he
  have ha2 : a ∈ topicGet (build_topic_mapping data) e.1 := by
    rw [hget]
    exact List.mem_of_mem_take ha
  have hb2 : b ∈ topicGet (build_topic_mapping data) e.1 := by
    rw [hget]
    exact List.mem_of_mem_take hb
  rcases sortPair_cases a b with hs | hs <;> rw [hab, hs]
  · exact ⟨ha2, hb2⟩
  · exact ⟨hb2, ha2⟩

theorem entry_pairKeys_shared {data : List (Repo α)}
    (h1 : (namesOf data).Nodup) :
    ∀ p ∈ build_topic_mapping data, ∀ q ∈ build_topic_mapping data, p ≠ q →
    ∀ k, k ∈ pairKeys (p.2.take 8) → k ∈ pairKeys (q.2.take 8) →
    2 ≤ sharedCount data k.1 k.2 := by
  intro p hp q hq hne k hkp hkq
  have hc1 := entry_pairKeys_comp p hp k hkp
  have hc2 := entry_pairKeys_comp q hq k hkq
  have hpq : p.1 ≠ q.1 := by
    intro he
    exact hne (List.inj_on_of_nodup_map (build_topic_mapping_keys data) hp hq he)
  have h1a : p.1 ∈ topicsOf data k.1 := topic_mem_topicsOf h1 hc1.1
  have h1b : p.1 ∈ topicsOf data k.2 := topic_mem_topicsOf h1 hc1.2
  have h2a : q.1 ∈ topicsOf data k.1 := topic_mem_topicsOf h1 hc2.1
  have h2b : q.1 ∈ topicsOf data k.2 := topic_mem_topicsOf h1 hc2.2
  rw [sharedCount_eq_card]
  have hsub : ({p.1, q.1} : Finset α) ⊆
      (topicsOf data k.1).toFinset ∩ (topicsOf data k.2).toFinset := by
    intro t ht
    rw [Finset.mem_insert, Finset.mem_singleton] at ht
    rw [Finset.mem_inter, List.mem_toFinset, List.mem_toFinset]
    rcases ht with rfl | rfl
    · exact ⟨h1a, h1b⟩
    · exact ⟨h2a, h2b⟩
  calc 2 = ({p.1, q.1} : Finset α).card := (Finset.card_pair hpq).symm
    _ ≤ _ := Finset.card_le_card hsub

/-- C6 (amended): `added_edges` records a pair only when the edge is
actually added (`shared >= 2`); a pair failing the test is not recorded.
Nevertheless, for inputs with pairwise-distinct `full_name`s and
duplicate-free per-record topic lists, no unordered pair's shared-topic
intersection is ever computed twice: a failing pair co-occurs under at most
one topic, so the dedup-on-success policy never causes a duplicate weight
computation. -/
theorem eval_once_and_record_on_success : ∀ (data : List (Repo α)),
    (namesOf data).Nodup → (∀ r ∈ data, r.topics.Nodup) →
    (build_full_state data).evalLog.Nodup ∧
    (∀ k ∈ (build_full_state data).added, 2 ≤ sharedCount data k.1 k.2) := by
  intro data h1 h2
  constructor
  · rw [build_full_state_eq]
    refine (foldPairLoop_evalInv (build_topic_mapping data) _
      (build_topic_mapping_keys data) ?_ (entry_pairKeys_shared h1)
      List.nodup_nil ?_ ?_).1
    · intro p hp
      have hget : topicGet (build_topic_mapping data) p.1 = p.2 := by
        refine entry_topicGet (build_topic_mapping_keys data) ?_
        rcases p with ⟨t, l⟩
        exact hp
      have hnd : p.2.Nodup := by
        rw [← hget]
        exact topicGet_build_nodup h1 h2 p.1
      exact List.Nodup.sublist (List.take_sublist 8 p.2) hnd
    · intro k hk
      exact absurd hk (List.not_mem_nil k)
    · intro k hk
      exact absurd hk (List.not_mem_nil k)
  · intro k hk
    rcases buildState_sound data h1 h2 k hk with ⟨u, v, _, _, _, hkey, hsh⟩
    rw [hkey, sharedCount_sortPair]
    exact hsh

/-- Witness for C6 (amended) on `dW3`. -/
theorem eval_once_witness :
    (namesOf dW3).Nodup ∧ (∀ r ∈ dW3, r.topics.Nodup) ∧
    ((build_full_state dW3).evalLog.Nodup ∧
     (∀ k ∈ (build_full_state dW3).added, 2 ≤ sharedCount dW3 k.1 k.2)) :=
  ⟨by decide, by decide, eval_once_and_record_on_success dW3 (by decide) (by decide)⟩

end OpenRank

namespace OpenRank

variable {α : Type} [LinearOrder α]

/-! ### Attribute and edge lookups under graph updates -/

theorem lookupAttr_addEdge (G : Graph α) (u v : α) (w : ℕ) (x : α) :
    lookupAttr (addEdge G u v w) x = lookupAttr G x := by
  unfold addEdge lookupAttr
  split_ifs <;> rfl

theorem matchesEdge_symm {u v : α} {e : α × α × ℕ} :
    matchesEdge u v e ↔ matchesEdge v u e := by
  unfold matchesEdge
  exact or_comm

theorem edgeBetween_comm (G : Graph α) (u v : α) :
    edgeBetween G u v = edgeBetween G v u := by
  unfold edgeBetween
  congr 1
  funext e
  exact decide_eq_decide.mpr matchesEdge_symm

theorem edgeBetween_addEdge_mono {G : Graph α} {x y : α} (u v : α) (w : ℕ)
    (h : edgeBetween G x y = true) :
    edgeBetween (addEdge G u v w) x y = true := by
  rcases edgeBetween_iff.mp h with ⟨e, he, hm⟩
  unfold addEdge
  split_ifs with hex
  · refine edgeBetween_iff.mpr ⟨if matchesEdge u v e then (e.1, e.2.1, w) else e, ?_, ?_⟩
    · exact List.mem_map_of_mem _ he
    · by_cases hm2 : matchesEdge u v e
      · rw [if_pos hm2]
        rcases hm with ⟨h1, h2⟩ | ⟨h1, h2⟩
        · exact Or.inl ⟨h1, h2⟩
        · exact Or.inr ⟨h1, h2⟩
      · rw [if_neg hm2]
        exact hm
  · exact edgeBetween_iff.mpr ⟨e, List.mem_append.mpr (Or.inl he), hm⟩

theorem edgeBetween_addEdge_self (G : Graph α) (u v : α) (w : ℕ) :
    edgeBetween (addEdge G u v w) u v = true := by
  unfold addEdge
  split_ifs with hex
  · rcases List.any_eq_true.mp hex with ⟨e, he, hd⟩
    have hm := of_decide_eq_true hd
    refine edgeBetween_iff.mpr ⟨(e.1, e.2.1, w), List.mem_map.mpr ⟨e, he, ?_⟩, ?_⟩
    · rw [if_pos hm]
    · rcases hm with ⟨h1, h2⟩ | ⟨h1, h2⟩
      · exact Or.inl ⟨h1, h2⟩
      · exact Or.inr ⟨h1, h2⟩
  · exact edgeBetween_iff.mpr
      ⟨(u, v, w), List.mem_append.mpr (Or.inr (List.mem_singleton.mpr rfl)), Or.inl ⟨rfl, rfl⟩⟩

theorem edgeBetween_addNode (G : Graph α) (x : α) (a : NodeAttrs) (u v : α) :
    edgeBetween (addNode G x a) u v = edgeBetween G u v := by
  unfold edgeBetween
  rw [addNode_edges]

theorem find?_map_upd (l : List (α × NodeAttrs)) (x : α) (a : NodeAttrs)
    (h : l.any (fun p => decide (p.1 = x)) = true) :
    (l.map (fun p => if p.1 = x then (x, a) else p)).find?
      (fun p => decide (p.1 = x)) = some (x, a) := by
  induction l with
  | nil => simp at h
  | cons p ps ih =>
    rw [List.map_cons]
    by_cases hp : p.1 = x
    · rw [if_pos hp, List.find?_cons_of_pos _ (by simp)]
    · rw [if_neg hp, List.find?_cons_of_neg _ (by simpa using hp)]
      apply ih
      rcases List.any_eq_true.mp h with ⟨q, hq, hq2⟩
      rcases List.mem_cons.mp hq with rfl | hq'
      · exact absurd (of_decide_eq_true hq2) hp
      · exact List.any_eq_true.mpr ⟨q, hq', hq2⟩

theorem lookupAttr_addNode_self (G : Graph α) (x : α) (a : NodeAttrs) :
    lookupAttr (addNode G x a) x = some a := by
  unfold addNode lookupAttr
  split_ifs with h
  · rw [find?_map_upd G.nodeAttrs x a h]
    rfl
  · rw [List.find?_append]
    have hnone : G.nodeAttrs.find? (fun p => decide (p.1 = x)) = none := by
      rw [List.find?_eq_none]
      intro p hp hd
      exact h (List.any_eq_true.mpr ⟨p, hp, hd⟩)
    rw [hnone, List.find?_cons_of_pos _ (by simp)]
    rfl

theorem find?_map_upd_other (l : List (α × NodeAttrs)) (x : α) (a : NodeAttrs)
    (y : α) (hne : y ≠ x) :
    (l.map (fun p => if p.1 = x then (x, a) else p)).find?
      (fun p => decide (p.1 = y)) = l.find? (fun p => decide (p.1 = y)) := by
  induction l with
  | nil => rfl
  | cons p ps ih =>
    rw [List.map_cons]
    by_cases hp : p.1 = x
    · rw [if_pos hp, List.find?_cons_of_neg _ (by simpa using Ne.symm hne),
        List.find?_cons_of_neg _ (by simp [hp]; exact fun he => hne (he ▸ rfl))]
      exact ih
    · rw [if_neg hp]
      by_cases hpy : p.1 = y
      · rw [List.find?_cons_of_pos _ (by simpa using hpy),
          List.find?_cons_of_pos _ (by simpa using hpy)]
      · rw [List.find?_cons_of_neg _ (by simpa using hpy),
          List.find?_cons_of_neg _ (by simpa using hpy)]
        exact ih

theorem lookupAttr_addNode_other (G : Graph α) (x : α) (a : NodeAttrs)
    (y : α) (hne : y ≠ x) :
    lookupAttr (addNode G x a) y = lookupAttr G y := by
  unfold addNode lookupAttr
  split_ifs with h
  · rw [find?_map_upd_other G.nodeAttrs x a y hne]
  · rw [List.find?_append]
    have h2 : List.find? (fun p => decide (p.1 = y)) [(x, a)] = none := by
      rw [List.find?_eq_none]
      intro p hp hd
      rw [List.mem_singleton] at hp
      rw [hp] at hd
      exact hne (of_decide_eq_true hd).symm
    rw [h2]
    cases G.nodeAttrs.find? (fun p => decide (p.1 = y)) <;> rfl

theorem lookupAttr_empty (x : α) : lookupAttr (Graph.empty : Graph α) x = none := rfl

end OpenRank

namespace OpenRank

variable {α : Type} [LinearOrder α]

/-! ### The mid-round invariant is preserved by candidate processing -/

theorem processCandidate_mid {l : ℕ} {s : EgoState α} {name : α} (rr : α)
    {attrs : NodeAttrs} (h : EgoMid s l)
    (hattr : lookupAttr s.G name = some attrs) (hlev : attrs.level = some l) :
    EgoMid (processCandidate s name rr) l ∧
    (processCandidate s name rr).visited = s.visited ∧
    (∀ z, lookupAttr (processCandidate s name rr).G z = lookupAttr s.G z) ∧
    (∀ x y, edgeBetween s.G x y = true →
      edgeBetween (processCandidate s name rr).G x y = true) := by
  have hGl : ∀ z, lookupAttr (addEdge s.G name rr 1) z = lookupAttr s.G z :=
    fun z => lookupAttr_addEdge s.G name rr 1 z
  have hEm : ∀ x y, edgeBetween s.G x y = true →
      edgeBetween (addEdge s.G name rr 1) x y = true :=
    fun x y hxy => edgeBetween_addEdge_mono name rr 1 hxy
  have hMid : ∀ nx : List α,
      (∀ x ∈ nx, x ∈ s.visited ∨ ∃ y b, edgeBetween (addEdge s.G name rr 1) x y = true ∧
        lookupAttr (addEdge s.G name rr 1) y = some b ∧ b.level = some l) →
      EgoMid (⟨addEdge s.G name rr 1, s.visited, nx⟩ : EgoState α) l := by
    intro nx hnx
    refine ⟨?_, ?_, ?_, hnx⟩
    · intro x hx
      have hx2 : (lookupAttr (addEdge s.G name rr 1) x).isSome = true := hx
      rw [hGl x] at hx2
      exact h.attr_vis x hx2
    · intro x a ha
      have ha2 : lookupAttr (addEdge s.G name rr 1) x = some a := ha
      rw [hGl x] at ha2
      exact h.levels_le x a ha2
    · intro x a m ha hm h1
      have ha2 : lookupAttr (addEdge s.G name rr 1) x = some a := ha
      rw [hGl x] at ha2
      rcases h.parents x a m ha2 hm h1 with ⟨y, b, he, hl2, hb⟩
      refine ⟨y, b, hEm x y he, ?_, hb⟩
      show lookupAttr (addEdge s.G name rr 1) y = some b
      rw [hGl y]
      exact hl2
  unfold processCandidate
  split_ifs with hc hin
  · refine ⟨hMid s.next ?_, rfl, hGl, hEm⟩
    intro x hx
    rcases h.nextinv x hx with hv | ⟨y, b, he, hl2, hb⟩
    · exact Or.inl hv
    · refine Or.inr ⟨y, b, hEm x y he, ?_, hb⟩
      rw [hGl y]
      exact hl2
  · refine ⟨hMid (s.next ++ [rr]) ?_, rfl, hGl, hEm⟩
    intro x hx
    rcases List.mem_append.mp hx with hx' | hx'
    · rcases h.nextinv x hx' with hv | ⟨y, b, he, hl2, hb⟩
      · exact Or.inl hv
      · refine Or.inr ⟨y, b, hEm x y he, ?_, hb⟩
        rw [hGl y]
        exact hl2
    · rw [List.mem_singleton] at hx'
      subst hx'
      refine Or.inr ⟨name, attrs, ?_, ?_, hlev⟩
      · rw [edgeBetween_comm]
        exact edgeBetween_addEdge_self s.G name x 1
      · rw [hGl name]
        exact hattr
  · exact ⟨h, rfl, fun z => rfl, fun x y hxy => hxy⟩

theorem candFold_mid {l : ℕ} (name : α) (attrs : NodeAttrs) (hlev : attrs.level = some l) :
    ∀ (cands : List α) (s : EgoState α), EgoMid s l →
    lookupAttr s.G name = some attrs →
    EgoMid (cands.foldl (fun s'' rr => processCandidate s'' name rr) s) l ∧
    (cands.foldl (fun s'' rr => processCandidate s'' name rr) s).visited = s.visited ∧
    (∀ z, lookupAttr (cands.foldl (fun s'' rr => processCandidate s'' name rr) s).G z =
      lookupAttr s.G z) ∧
    (∀ x y, edgeBetween s.G x y = true →
      edgeBetween (cands.foldl (fun s'' rr => processCandidate s'' name rr) s).G x y = true) := by
  intro cands
  induction cands with
  | nil => intro s h hattr; exact ⟨h, rfl, fun z => rfl, fun x y hxy => hxy⟩
  | cons rr cands ih =>
    intro s h hattr
    rw [List.foldl_cons]
    have hstep := processCandidate_mid rr h hattr hlev
    have hattr1 : lookupAttr (processCandidate s name rr).G name = some attrs := by
      rw [hstep.2.2.1 name]
      exact hattr
    have hrest := ih (processCandidate s name rr) hstep.1 hattr1
    refine ⟨hrest.1, hrest.2.1.trans hstep.2.1, ?_, ?_⟩
    · intro z
      rw [hrest.2.2.1 z, hstep.2.2.1 z]
    · intro x y hxy
      exact hrest.2.2.2 x y (hstep.2.2.2 x y hxy)

theorem topicsFold_mid (tm : List (α × List α)) {l : ℕ} (name : α) (attrs : NodeAttrs)
    (hlev : attrs.level = some l) :
    ∀ (ts : List α) (s : EgoState α), EgoMid s l →
    lookupAttr s.G name = some attrs →
    EgoMid (ts.foldl (fun s' t =>
      ((topicGet tm t).take 5).foldl (fun s'' rr => processCandidate s'' name rr) s') s) l ∧
    (ts.foldl (fun s' t =>
      ((topicGet tm t).take 5).foldl (fun s'' rr => processCandidate s'' name rr) s') s).visited
      = s.visited ∧
    (∀ z, lookupAttr (ts.foldl (fun s' t =>
      ((topicGet tm t).take 5).foldl (fun s'' rr => processCandidate s'' name rr) s') s).G z =
      lookupAttr s.G z) ∧
    (∀ x y, edgeBetween s.G x y = true →
      edgeBetween (ts.foldl (fun s' t =>
        ((topicGet tm t).take 5).foldl (fun s'' rr => processCandidate s'' name rr) s') s).G
        x y = true) := by
  intro ts
  induction ts with
  | nil => intro s h hattr; exact ⟨h, rfl, fun z => rfl, fun x y hxy => hxy⟩
  | cons t ts ih =>
    intro s h hattr
    rw [List.foldl_cons]
    have hstep := candFold_mid name attrs hlev ((topicGet tm t).take 5) s h hattr
    have hattr1 : lookupAttr
        (((topicGet tm t).take 5).foldl (fun s'' rr => processCandidate s'' name rr) s).G name
        = some attrs := by
      rw [hstep.2.2.1 name]
      exact hattr
    have hrest := ih _ hstep.1 hattr1
    refine ⟨hrest.1, hrest.2.1.trans hstep.2.1, ?_, ?_⟩
    · intro z
      rw [hrest.2.2.1 z, hstep.2.2.1 z]
    · intro x y hxy
      exact hrest.2.2.2 x y (hstep.2.2.2 x y hxy)

end OpenRank

namespace OpenRank

variable {α : Type} [LinearOrder α]

theorem processNode_mid (data : List (Repo α)) (tm : List (α × List α)) {l : ℕ}
    {s : EgoState α} {name : α} (h : EgoMid s l)
    (hfront : name ∈ s.visited ∨ l = 0 ∨ ∃ y b, edgeBetween s.G name y = true ∧
      lookupAttr s.G y = some b ∧ b.level = some (l - 1)) :
    EgoMid (processNode data tm l s name) l ∧
    s.visited ⊆ (processNode data tm l s name).visited ∧
    (∀ y b, lookupAttr s.G y = some b → lookupAttr (processNode data tm l s name).G y = some b) ∧
    (∀ x y, edgeBetween s.G x y = true →
      edgeBetween (processNode data tm l s name).G x y = true) := by
  unfold processNode
  split_ifs with hv
  · exact ⟨h, List.Subset.refl _, fun y b hb => hb, fun x y hxy => hxy⟩
  · cases hrm : repoMap data name with
    | none =>
      simp only [hrm]
      refine ⟨⟨?_, h.levels_le, h.parents, ?_⟩, List.subset_append_left _ _,
        fun y b hb => hb, fun x y hxy => hxy⟩
      · intro x hx
        exact List.mem_append.mpr (Or.inl (h.attr_vis x hx))
      · intro x hx
        rcases h.nextinv x hx with hvx | hw
        · exact Or.inl (List.mem_append.mpr (Or.inl hvx))
        · exact Or.inr hw
    | some repo =>
      simp only [hrm]
      have hnone : lookupAttr s.G name = none := by
        cases hl : lookupAttr s.G name with
        | none => rfl
        | some a => exact absurd (h.attr_vis name (by rw [hl]; rfl)) hv
      have hyne : ∀ y b, lookupAttr s.G y = some b → y ≠ name := by
        intro y b hb he
        rw [he, hnone] at hb
        cases hb
      have hself : lookupAttr
          (addNode s.G name ⟨repo.activity_score, repo.star_count, langOf repo, some l⟩) name =
          some ⟨repo.activity_score, repo.star_count, langOf repo, some l⟩ :=
        lookupAttr_addNode_self s.G name _
      have hother : ∀ y b, lookupAttr s.G y = some b →
          lookupAttr (addNode s.G name
            ⟨repo.activity_score, repo.star_count, langOf repo, some l⟩) y = some b := by
        intro y b hb
        rw [lookupAttr_addNode_other s.G name _ y (hyne y b hb)]
        exact hb
      have hedges : ∀ x y, edgeBetween s.G x y = true →
          edgeBetween (addNode s.G name
            ⟨repo.activity_score, repo.star_count, langOf repo, some l⟩) x y = true := by
        intro x y hxy
        rw [edgeBetween_addNode]
        exact hxy
      have hmid2 : EgoMid (⟨addNode s.G name
          ⟨repo.activity_score, repo.star_count, langOf repo, some l⟩,
          s.visited ++ [name], s.next⟩ : EgoState α) l := by
        refine ⟨?_, ?_, ?_, ?_⟩
        · intro x hx
          have hx2 : (lookupAttr (addNode s.G name
              ⟨repo.activity_score, repo.star_count, langOf repo, some l⟩) x).isSome = true := hx
          by_cases hxn : x = name
          · exact List.mem_append.mpr (Or.inr (by rw [List.mem_singleton, hxn]))
          · rw [lookupAttr_addNode_other s.G name _ x hxn] at hx2
            exact List.mem_append.mpr (Or.inl (h.attr_vis x hx2))
        · intro x a ha
          have ha2 : lookupAttr (addNode s.G name
              ⟨repo.activity_score, repo.star_count, langOf repo, some l⟩) x = some a := ha
          by_cases hxn : x = name
          · rw [hxn, hself] at ha2
            injection ha2 with ha3
            exact ⟨l, by rw [← ha3], le_refl l⟩
          · rw [lookupAttr_addNode_other s.G name _ x hxn] at ha2
            exact h.levels_le x a ha2
        · intro x a m ha hm h1
          have ha2 : lookupAttr (addNode s.G name
              ⟨repo.activity_score, repo.star_count, langOf repo, some l⟩) x = some a := ha
          by_cases hxn : x = name
          · rw [hxn, hself] at ha2
            injection ha2 with ha3
            have hml : m = l := by
              rw [← ha3] at hm
              injection hm with hm2
              exact hm2.symm
            rcases hfront with hvn | hl0 | ⟨y, b, he, hl2, hb⟩
            · exact absurd hvn hv
            · omega
            · refine ⟨y, b, ?_, ?_, ?_⟩
              · show edgeBetween (addNode s.G name
                  ⟨repo.activity_score, repo.star_count, langOf repo, some l⟩) x y = true
                rw [hxn]
                exact hedges name y he
              · exact hother y b hl2
              · rw [hml]
                exact hb
          · rw [lookupAttr_addNode_other s.G name _ x hxn] at ha2
            rcases h.parents x a m ha2 hm h1 with ⟨y, b, he, hl2, hb⟩
            exact ⟨y, b, hedges x y he, hother y b hl2, hb⟩
        · intro x hx
          rcases h.nextinv x hx with hvx | ⟨y, b, he, hl2, hb⟩
          · exact Or.inl (List.mem_append.mpr (Or.inl hvx))
          · exact Or.inr ⟨y, b, hedges x y he, hother y b hl2, hb⟩
      have hfold := topicsFold_mid tm name
        ⟨repo.activity_score, repo.star_count, langOf repo, some l⟩ rfl (repo.topics.take 5)
        ⟨addNode s.G name ⟨repo.activity_score, repo.star_count, langOf repo, some l⟩,
          s.visited ++ [name], s.next⟩ hmid2 hself
      refine ⟨hfold.1, ?_, ?_, ?_⟩
      · intro z hz
        rw [hfold.2.1]
        exact List.mem_append.mpr (Or.inl hz)
      · intro y b hb
        rw [hfold.2.2.1 y]
        exact hother y b hb
      · intro x y hxy
        exact hfold.2.2.2 x y (hedges x y hxy)

theorem processRound_mid {data : List (Repo α)} {tm : List (α × List α)} {l : ℕ} :
    ∀ (frontier : List α) (st : EgoState α), EgoMid st l →
    (∀ x ∈ frontier, x ∈ st.visited ∨ l = 0 ∨ ∃ y b, edgeBetween st.G x y = true ∧
      lookupAttr st.G y = some b ∧ b.level = some (l - 1)) →
    EgoMid (processRound data tm l st frontier) l := by
  intro frontier
  induction frontier with
  | nil => intro st h _; exact h
  | cons x fr ih =>
    intro st h hfr
    unfold processRound
    rw [List.foldl_cons]
    have hn := processNode_mid data tm h (hfr x (List.mem_cons_self x fr))
    refine ih (processNode data tm l st x) hn.1 ?_
    intro z hz
    rcases hfr z (List.mem_cons_of_mem x hz) with hvz | hl0 | ⟨y, b, he, hlk, hbl⟩
    · exact Or.inl (hn.2.1 hvz)
    · exact Or.inr (Or.inl hl0)
    · exact Or.inr (Or.inr ⟨y, b, hn.2.2.2 z y he, hn.2.2.1 y b hlk, hbl⟩)

theorem egoInv_start {st : EgoState α} {current : List α} {l : ℕ}
    (h : EgoInv st current l) : EgoMid { st with next := ([] : List α) } l := by
  refine ⟨h.attr_vis, ?_, h.parents, ?_⟩
  · intro x a ha
    rcases h.levels_lt x a ha with ⟨m, hm1, hm2⟩
    exact ⟨m, hm1, le_of_lt hm2⟩
  · intro x hx
    exact absurd hx (List.not_mem_nil x)

theorem egoInv_next {st : EgoState α} {l : ℕ} (h : EgoMid st l) :
    EgoInv st st.next (l + 1) := by
  refine ⟨h.attr_vis, ?_, h.parents, ?_⟩
  · intro x a ha
    rcases h.levels_le x a ha with ⟨m, hm1, hm2⟩
    exact ⟨m, hm1, Nat.lt_succ_of_le hm2⟩
  · intro x hx
    rcases h.nextinv x hx with hv | ⟨y, b, he, hl2, hb⟩
    · exact Or.inl hv
    · exact Or.inr (Or.inr ⟨y, b, he, hl2, hb⟩)

theorem egoRounds_inv (data : List (Repo α)) (tm : List (α × List α)) :
    ∀ (n l : ℕ) (st : EgoState α) (current : List α), EgoInv st current l →
    (∀ x a, lookupAttr (egoRounds data tm (List.range' l n) st current).1.G x = some a →
      ∃ m, a.level = some m ∧ m < l + n) ∧
    (∀ x a m, lookupAttr (egoRounds data tm (List.range' l n) st current).1.G x = some a →
      a.level = some m → 1 ≤ m →
      ∃ y b, edgeBetween (egoRounds data tm (List.range' l n) st current).1.G x y = true ∧
        lookupAttr (egoRounds data tm (List.range' l n) st current).1.G y = some b ∧
        b.level = some (m - 1)) := by
  intro n
  induction n with
  | zero =>
    intro l st current h
    refine ⟨?_, h.parents⟩
    intro x a ha
    rcases h.levels_lt x a ha with ⟨m, hm1, hm2⟩
    exact ⟨m, hm1, by omega⟩
  | succ n ih =>
    intro l st current h
    have hcons : List.range' l (n + 1) = l :: List.range' (l + 1) n := rfl
    rw [hcons, egoRounds_cons]
    split_ifs with hstop
    · refine ⟨?_, h.parents⟩
      intro x a ha
      rcases h.levels_lt x a ha with ⟨m, hm1, hm2⟩
      exact ⟨m, hm1, by omega⟩
    · have hmid : EgoMid (processRound data tm l { st with next := [] } current) l := by
        refine processRound_mid current { st with next := ([] : List α) } (egoInv_start h) ?_
        intro x hx
        exact h.frontier x hx
      have hres := ih (l + 1)
        (processRound data tm l { st with next := [] } current)
        (processRound data tm l { st with next := [] } current).next
        (egoInv_next hmid)
      refine ⟨?_, hres.2⟩
      intro x a ha
      rcases hres.1 x a ha with ⟨m, hm1, hm2⟩
      exact ⟨m, hm1, by omega⟩

/-! ### C8: levels are bounded by 4 and every positive level hangs off its parent level -/

/-- C8: in every graph produced by the ego-network builder, every
attributed (finalized) node carries a level at most 4, and every node
finalized at level `m >= 1` has an edge to a node whose level attribute is
`m - 1`. -/
theorem ego_levels_bounded_and_parented : ∀ (data : List (Repo α)) (start : α) (G : Graph α),
    build_4level_graph data start = Except.ok G →
    (∀ x a, lookupAttr G x = some a → ∃ m, a.level = some m ∧ m ≤ 4) ∧
    (∀ x a m, lookupAttr G x = some a → a.level = some m → 1 ≤ m →
      ∃ y b, edgeBetween G x y = true ∧ lookupAttr G y = some b ∧
        b.level = some (m - 1)) := by
  intro data start G hok
  have hG : G = (build_4level_run data start).1.G := ego_ok_graph hok
  subst hG
  have hinit : EgoInv (⟨Graph.empty, [], []⟩ : EgoState α) [start] 0 := by
    refine ⟨?_, ?_, ?_, ?_⟩
    · intro x hx
      rw [lookupAttr_empty] at hx
      simp at hx
    · intro x a ha
      rw [lookupAttr_empty] at ha
      cases ha
    · intro x a m ha
      rw [lookupAttr_empty] at ha
      cases ha
    · intro x _
      exact Or.inr (Or.inl rfl)
  have h := egoRounds_inv data (build_topic_mapping data) 5 0
    (⟨Graph.empty, [], []⟩ : EgoState α) [start] hinit
  have hrange : List.range (levels + 1) = List.range' 0 5 := by
    rw [List.range_eq_range']
    rfl
  have hrun : build_4level_run data start =
      egoRounds data (build_topic_mapping data) (List.range' 0 5)
        (⟨Graph.empty, [], []⟩ : EgoState α) [start] := by
    unfold build_4level_run
    rw [hrange]
  rw [hrun]
  refine ⟨?_, h.2⟩
  intro x a ha
  rcases h.1 x a ha with ⟨m, hm1, hm2⟩
  exact ⟨m, hm1, by omega⟩

/-- Witness for C8 on the one-repository input `dW1` with seed `1`. -/
theorem ego_levels_witness :
    build_4level_graph dW1 1 = Except.ok ((build_4level_run dW1 1).1.G) ∧
    ((∀ x a, lookupAttr ((build_4level_run dW1 1).1.G) x = some a →
        ∃ m, a.level = some m ∧ m ≤ 4) ∧
     (∀ x a m, lookupAttr ((build_4level_run dW1 1).1.G) x = some a →
        a.level = some m → 1 ≤ m →
        ∃ y b, edgeBetween ((build_4level_run dW1 1).1.G) x y = true ∧
          lookupAttr ((build_4level_run dW1 1).1.G) y = some b ∧
          b.level = some (m - 1))) :=
  ⟨rfl, ego_levels_bounded_and_parented dW1 1 _ rfl⟩

end OpenRank
